import Mathlib

/-!
Verification of the Peggy grammar-compiler core against its specification.

The definitions below are a shallow embedding of the compiler pipeline
sources: the AST model (`lib/parser.d.ts`), the AST helpers
(`lib/compiler/asts.ts`), the diagnostics session (`lib/compiler/session.ts`),
the six check passes (`lib/compiler/passes/report-*.ts`), the two transform
passes (`remove-proxy-rules.ts` and `inferenceMatchResult`), the bytecode
generator (`generateBytecode`) and the `compile` driver.

Modelling conventions:
* JavaScript exceptions (`throw new Error(...)` and thrown `GrammarError`s)
  become `Except String` / explicit error results.
* In-place mutation of AST nodes becomes explicit state threading: functions
  return the updated value.  Where the source shares one mutable object
  (a label environment, a pluck list, the session), the model threads the
  updated value back to the caller; where the source clones (`{...env}`),
  the model passes the value and discards the callee's copy.
* Unbounded recursion through rule references (which can diverge in the
  source on cyclic grammars) is modelled with an explicit `fuel` parameter;
  `none` / an error result stands for divergence.
-/

set_option maxHeartbeats 1000000

namespace Peggy

/-- The three-valued match result (`const enum MatchResult` in parser.d.ts):
ALWAYS = 1, SOMETIMES = 0, NEVER = -1. -/
inductive MatchResult where
  | always
  | sometimes
  | never
deriving DecidableEq, Fintype

/-- Integer value of a match result, as in the source enum. -/
def MatchResult.toInt : MatchResult → Int
  | .always => 1
  | .sometimes => 0
  | .never => -1

/-- Arithmetic negation of a match result (the source writes `-match`):
ALWAYS ↔ NEVER, SOMETIMES unchanged. -/
def MatchResult.neg : MatchResult → MatchResult
  | .always => .never
  | .sometimes => .sometimes
  | .never => .always

/-- A source span.  Only the identity of a location matters to the compiler
core (locations are attached to diagnostics and never inspected), so the
model keeps a source id and two offsets. -/
structure LocationRange where
  source : String := ""
  startOffset : Nat := 0
  endOffset : Nat := 0
deriving DecidableEq

/-- One part of a character class: a single string or a range. -/
inductive ClassPart where
  | single (s : String)
  | range (lo hi : String)
deriving DecidableEq

/-- Expression nodes of the grammar AST (parser.d.ts).  Every node carries
its optional `match` annotation (`m?`, written `match?: MatchResult` in the
source, populated only by the inference pass) and its location. -/
inductive Expr where
  | named (name : String) (expression : Expr) (m? : Option MatchResult) (loc : LocationRange)
  | choice (alternatives : List Expr) (m? : Option MatchResult) (loc : LocationRange)
  | action (code : String) (codeLocation : LocationRange) (expression : Expr)
      (m? : Option MatchResult) (loc : LocationRange)
  | sequence (elements : List Expr) (m? : Option MatchResult) (loc : LocationRange)
  | labeled (pick : Bool) (label : Option String) (labelLocation : LocationRange)
      (expression : Expr) (m? : Option MatchResult) (loc : LocationRange)
  | text (expression : Expr) (m? : Option MatchResult) (loc : LocationRange)
  | simple_and (expression : Expr) (m? : Option MatchResult) (loc : LocationRange)
  | simple_not (expression : Expr) (m? : Option MatchResult) (loc : LocationRange)
  | optional (expression : Expr) (m? : Option MatchResult) (loc : LocationRange)
  | zero_or_more (expression : Expr) (m? : Option MatchResult) (loc : LocationRange)
  | one_or_more (expression : Expr) (m? : Option MatchResult) (loc : LocationRange)
  | group (expression : Expr) (m? : Option MatchResult) (loc : LocationRange)
  | semantic_and (code : String) (codeLocation : LocationRange)
      (m? : Option MatchResult) (loc : LocationRange)
  | semantic_not (code : String) (codeLocation : LocationRange)
      (m? : Option MatchResult) (loc : LocationRange)
  | rule_ref (name : String) (m? : Option MatchResult) (loc : LocationRange)
  | literal (value : String) (ignoreCase : Bool) (m? : Option MatchResult) (loc : LocationRange)
  | charClass (parts : List ClassPart) (inverted : Bool) (ignoreCase : Bool)
      (m? : Option MatchResult) (loc : LocationRange)
  | anyChar (m? : Option MatchResult) (loc : LocationRange)

/-- A grammar rule: name, name span, body expression, plus the annotations
added by later passes (`match`, `bytecode`). -/
structure Rule where
  name : String
  nameLocation : LocationRange := {}
  expression : Expr
  m? : Option MatchResult := none
  bytecode? : Option (List Int) := none
  loc : LocationRange := {}

/-- A top-level or per-parse initializer code block. -/
structure InitializerNode where
  code : String := ""
  codeLocation : LocationRange := {}
  loc : LocationRange := {}
deriving DecidableEq

/-- Character-class constant-pool descriptor (`bytecodeDone.CharClassDesc`). -/
structure CharClassDesc where
  value : List ClassPart
  inverted : Bool
  ignoreCase : Bool
deriving DecidableEq

/-- Expected-token constant-pool descriptor (`bytecodeDone.ExpectedConst`). -/
inductive ExpectedConst where
  | ruleE (value : String)
  | literalE (value : String) (ignoreCase : Bool)
  | classE (value : List ClassPart) (inverted : Bool) (ignoreCase : Bool)
  | anyE
deriving DecidableEq

/-- User-code constant-pool descriptor (`bytecodeDone.FunctionDesc`). -/
structure FunctionDesc where
  predicate : Bool
  params : List String
  body : String
  location : LocationRange
deriving DecidableEq

/-- The grammar root node, with the pools added by `generateBytecode`. -/
structure Grammar where
  topLevelInitializer? : Option InitializerNode := none
  initializer? : Option InitializerNode := none
  rules : List Rule
  literals? : Option (List String) := none
  classes? : Option (List CharClassDesc) := none
  expectations? : Option (List ExpectedConst) := none
  functions? : Option (List FunctionDesc) := none

/-- Linear scan for the first rule with the given name (asts.ts `findRule`). -/
def findRule (g : Grammar) (name : String) : Option Rule :=
  g.rules.find? (fun r => r.name == name)

/-- Linear scan for the index of the first rule with the given name
(asts.ts `indexOfRule`); `-1` when the rule is absent. -/
def indexOfRule (g : Grammar) (name : String) : Int :=
  match g.rules.findIdx? (fun r => r.name == name) with
  | some i => (i : Int)
  | none => -1

/-! ### `alwaysConsumesOnSuccess` (asts.ts)

The source recurses through `rule_ref`s into other rules, which diverges on
cyclic reference chains; `fuel` bounds that recursion (it is decremented
exactly at `rule_ref`), and `none` models divergence.  All other cases are
structural and keep the fuel. -/

mutual

/-- Does this expression, whenever it succeeds, consume at least one unit of
input?  Faithful translation of the `consumes` visitor of
`alwaysConsumesOnSuccess`. -/
def consumes (g : Grammar) : Nat → Expr → Option Bool
  | fuel, .named _ e _ _ => consumes g fuel e
  | fuel, .choice alts _ _ => consumesEvery g fuel alts
  | fuel, .action _ _ e _ _ => consumes g fuel e
  | fuel, .sequence els _ _ => consumesSome g fuel els
  | fuel, .labeled _ _ _ e _ _ => consumes g fuel e
  | fuel, .text e _ _ => consumes g fuel e
  | _, .simple_and _ _ _ => some false
  | _, .simple_not _ _ _ => some false
  | _, .optional _ _ _ => some false
  | _, .zero_or_more _ _ _ => some false
  | fuel, .one_or_more e _ _ => consumes g fuel e
  | fuel, .group e _ _ => consumes g fuel e
  | _, .semantic_and _ _ _ _ => some false
  | _, .semantic_not _ _ _ _ => some false
  | fuel, .rule_ref name _ _ =>
    match fuel with
    | 0 => none
    | fuel' + 1 =>
      -- Because all checks run in one stage, some rules could be missing.
      match findRule g name with
      | some r => consumes g fuel' r.expression
      | none => some false
  | _, .literal v _ _ _ => some (v != "")
  | _, .charClass _ _ _ _ _ => some true
  | _, .anyChar _ _ => some true

/-- `alternatives.every(consumes)` with JavaScript short-circuiting. -/
def consumesEvery (g : Grammar) : Nat → List Expr → Option Bool
  | _, [] => some true
  | fuel, e :: rest =>
    match consumes g fuel e with
    | none => none
    | some false => some false
    | some true => consumesEvery g fuel rest

/-- `elements.some(consumes)` with JavaScript short-circuiting. -/
def consumesSome (g : Grammar) : Nat → List Expr → Option Bool
  | _, [] => some false
  | fuel, e :: rest =>
    match consumes g fuel e with
    | none => none
    | some true => some true
    | some false => consumesSome g fuel rest

end

/-- Entry point of asts.ts `alwaysConsumesOnSuccess` for expressions. -/
def alwaysConsumesOnSuccess (g : Grammar) (fuel : Nat) (e : Expr) : Option Bool :=
  consumes g fuel e

/-! ### Match-result inference (`inferenceMatchResult`, transform stage)

The expression-level handlers of the `inference` visitor are modelled as a
pure function over a *rule environment* `ρ`: the value the visitor returns
for a `rule_ref` with a given name.  In the source that value is read from
the (memoized) `match` property of the referenced rule — the rule currently
running its fixed-point loop returns its current `match`, a rule whose
inference already finished returns its memoized value, and a missing rule
yields SOMETIMES.  During one execution of a rule's fixed-point loop every
rule except the one being fixed is constant, so the loop body is exactly
`inferenceExprEnv (setRuleMatch ρ self current)` for a fixed `ρ`. -/

/-! ### Diagnostics session (session.ts, grammar-error.ts) -/

/-- Compilation stage names (passes/pass.ts `Stage`). -/
inductive Stage where
  | check
  | transform
  | generate
deriving DecidableEq

/-- A note attached to a diagnostic (grammar-error.ts `DiagnosticNote`). -/
structure DiagnosticNote where
  message : String
  location : LocationRange
deriving DecidableEq

/-- Diagnostic severity. -/
inductive Severity where
  | error
  | warning
  | info
deriving DecidableEq

/-- A recorded problem `(severity, message, location?, notes?)`
(grammar-error.ts `Problem`). -/
structure Problem where
  severity : Severity
  message : String
  location? : Option LocationRange := none
  notes? : Option (List DiagnosticNote) := none
deriving DecidableEq

/-- The `GrammarError` retained by the session on the first `error` call,
minus its `problems` field: in the source that field aliases the session's
mutable problems list, so the model attaches the session's current list only
at throw time (see `Session.checkErrors` and `ThrownGrammarError`). -/
structure FirstError where
  message : String
  location? : Option LocationRange := none
  notes? : Option (List DiagnosticNote) := none
  stage : Option Stage := none
deriving DecidableEq

/-- A thrown `GrammarError`, as observed by a catcher of `checkErrors`:
the retained first error together with the full problems list its `problems`
property aliases. -/
structure ThrownGrammarError where
  firstError? : Option FirstError
  problems : List Problem
deriving DecidableEq

/-- The compiler session (session.ts `Session`).  The three diagnostic
callbacks are external effects with no influence on compiler state and are
not modelled. -/
structure Session where
  problems : List Problem := []
  stage : Option Stage := none
  firstError? : Option FirstError := none
  errors : Nat := 0
deriving DecidableEq

/-- `Session.error`: increment the error count, on the first error retain the
exception (with `stage` = the session's current stage), then — after the
`Impossible` guard for a missing stage — record the problem.  The thrown
plain `Error("Impossible")` is the `.error` result. -/
def Session.error (s : Session) (message : String) (location? : Option LocationRange)
    (notes? : Option (List DiagnosticNote)) : Except String Session :=
  let errors := s.errors + 1
  let firstError? :=
    match s.firstError? with
    | none => some { message, location?, notes?, stage := s.stage }
    | some fe => some fe
  match s.stage with
  | none => .error "Impossible"
  | some _ =>
    .ok { s with
          errors := errors
          firstError? := firstError?
          problems := s.problems ++ [⟨.error, message, location?, notes?⟩] }

/-- `Session.warning`: record the problem; the error count and the retained
first error are untouched. -/
def Session.warning (s : Session) (message : String) (location? : Option LocationRange)
    (notes? : Option (List DiagnosticNote)) : Except String Session :=
  match s.stage with
  | none => .error "Impossible"
  | some _ =>
    .ok { s with problems := s.problems ++ [⟨.warning, message, location?, notes?⟩] }

/-- `Session.info`: record the problem; the error count and the retained
first error are untouched. -/
def Session.info (s : Session) (message : String) (location? : Option LocationRange)
    (notes? : Option (List DiagnosticNote)) : Except String Session :=
  match s.stage with
  | none => .error "Impossible"
  | some _ =>
    .ok { s with problems := s.problems ++ [⟨.info, message, location?, notes?⟩] }

/-- `Session.checkErrors`: when the error count is non-zero, throw the
retained first error; its `problems` property aliases the session's list, so
the thrown value carries the session's problems as of the throw. -/
def Session.checkErrors (s : Session) : Except ThrownGrammarError Unit :=
  if s.errors ≠ 0 then .error ⟨s.firstError?, s.problems⟩ else .ok ()

/-! ### Check passes (lib/compiler/passes/report-*, check stage)

Each pass receives the grammar and the session (the `options` argument of a
`Pass` is unused by the check passes) and reports through the session.  The
`buildVisitor` traversal is inlined structurally: the grammar default visits
the optional initializers (no-ops in every check pass) and then each rule,
the rule default recurses into the rule body, single-child expression nodes
recurse into their child, `choice`/`sequence` visit their children in order,
and atoms are no-ops unless a handler is supplied. -/

/-- Insertion-ordered associative update with JavaScript object semantics:
an existing key keeps its position, a new key is appended. -/
def assocSet {β : Type} : List (String × β) → String → β → List (String × β)
  | [], k, v => [(k, v)]
  | (k', v') :: rest, k, v =>
    if k' == k then (k', v) :: rest else (k', v') :: assocSet rest k v

mutual

/-- Expression traversal of `reportUndefinedRules`: every `rule_ref` whose
target `findRule` misses reports `Rule "X" is not defined` at its location. -/
def undefinedRulesE (g : Grammar) : Expr → Session → Except String Session
  | .rule_ref name _ loc, s =>
    match findRule g name with
    | none => Session.error s (s!"Rule \"{name}\" is not defined") (some loc) none
    | some _ => .ok s
  | .named _ e _ _, s => undefinedRulesE g e s
  | .choice alts _ _, s => undefinedRulesL g alts s
  | .action _ _ e _ _, s => undefinedRulesE g e s
  | .sequence els _ _, s => undefinedRulesL g els s
  | .labeled _ _ _ e _ _, s => undefinedRulesE g e s
  | .text e _ _, s => undefinedRulesE g e s
  | .simple_and e _ _, s => undefinedRulesE g e s
  | .simple_not e _ _, s => undefinedRulesE g e s
  | .optional e _ _, s => undefinedRulesE g e s
  | .zero_or_more e _ _, s => undefinedRulesE g e s
  | .one_or_more e _ _, s => undefinedRulesE g e s
  | .group e _ _, s => undefinedRulesE g e s
  | .semantic_and _ _ _ _, s => .ok s
  | .semantic_not _ _ _ _, s => .ok s
  | .literal _ _ _ _, s => .ok s
  | .charClass _ _ _ _ _, s => .ok s
  | .anyChar _ _, s => .ok s

/-- List part of `undefinedRulesE`. -/
def undefinedRulesL (g : Grammar) : List Expr → Session → Except String Session
  | [], s => .ok s
  | e :: rest, s => do
    let s ← undefinedRulesE g e s
    undefinedRulesL g rest s

end

/-- Check pass 1: `reportUndefinedRules`. -/
def reportUndefinedRules (g : Grammar) (s : Session) : Except String Session :=
  g.rules.foldlM (fun s r => undefinedRulesE g r.expression s) s

/-- Loop of `reportDuplicateRules` over the rules, carrying the mapping from
rule name to first-seen name span. -/
def dupRulesLoop (rules : List Rule) (seen : List (String × LocationRange))
    (s : Session) : Except String Session :=
  match rules with
  | [] => .ok s
  | r :: rest =>
    match seen.lookup r.name with
    | some origLoc => do
      let s ← Session.error s (s!"Rule \"{r.name}\" is already defined")
        (some r.nameLocation) (some [⟨"Original rule location", origLoc⟩])
      dupRulesLoop rest seen s
    | none => dupRulesLoop rest ((r.name, r.nameLocation) :: seen) s

/-- Check pass 2: `reportDuplicateRules`. -/
def reportDuplicateRules (g : Grammar) (s : Session) : Except String Session :=
  dupRulesLoop g.rules [] s

mutual

/-- Expression traversal of `reportDuplicateLabels`.  The environment maps
label names to their spans; handlers that clone (`{...env}`) discard the
callee's environment, shared traversals (the `labeled` child, `sequence`
elements, default single-child wrappers) thread it. -/
def dupLabelsE (e : Expr) (env : List (String × LocationRange)) (s : Session) :
    Except String (List (String × LocationRange) × Session) :=
  match e with
  | .labeled _ label labelLoc child _ _ => do
    let s ←
      match label with
      | some l =>
        match env.lookup l with
        | some orig =>
          Session.error s (s!"Label \"{l}\" is already defined") (some labelLoc)
            (some [⟨"Original label location", orig⟩])
        | none => .ok s
      | none => .ok s
    let (env, s) ← dupLabelsE child env s
    match label with
    | some l => .ok (assocSet env l labelLoc, s)
    | none => .ok (env, s)
  | .choice alts _ _ => do
    -- each alternative sees a clone of the enclosing scope
    let s ← dupLabelsAlts alts env s
    .ok (env, s)
  | .action _ _ child _ _ => do
    let (_, s) ← dupLabelsE child env s
    .ok (env, s)
  | .text child _ _ => do
    let (_, s) ← dupLabelsE child env s
    .ok (env, s)
  | .simple_and child _ _ => do
    let (_, s) ← dupLabelsE child env s
    .ok (env, s)
  | .simple_not child _ _ => do
    let (_, s) ← dupLabelsE child env s
    .ok (env, s)
  | .optional child _ _ => do
    let (_, s) ← dupLabelsE child env s
    .ok (env, s)
  | .zero_or_more child _ _ => do
    let (_, s) ← dupLabelsE child env s
    .ok (env, s)
  | .one_or_more child _ _ => do
    let (_, s) ← dupLabelsE child env s
    .ok (env, s)
  | .group child _ _ => do
    let (_, s) ← dupLabelsE child env s
    .ok (env, s)
  | .named _ child _ _ =>
    -- no handler: the expression-visitor default shares the environment
    dupLabelsE child env s
  | .sequence els _ _ => dupLabelsSeq els env s
  | .rule_ref _ _ _ => .ok (env, s)
  | .semantic_and _ _ _ _ => .ok (env, s)
  | .semantic_not _ _ _ _ => .ok (env, s)
  | .literal _ _ _ _ => .ok (env, s)
  | .charClass _ _ _ _ _ => .ok (env, s)
  | .anyChar _ _ => .ok (env, s)

/-- Choice alternatives of `reportDuplicateLabels`: each alternative checks
against a clone of the environment. -/
def dupLabelsAlts (alts : List Expr) (env : List (String × LocationRange))
    (s : Session) : Except String Session :=
  match alts with
  | [] => .ok s
  | a :: rest => do
    let (_, s) ← dupLabelsE a env s
    dupLabelsAlts rest env s

/-- Sequence elements of `reportDuplicateLabels`: one shared environment,
augmented left to right. -/
def dupLabelsSeq (els : List Expr) (env : List (String × LocationRange))
    (s : Session) : Except String (List (String × LocationRange) × Session) :=
  match els with
  | [] => .ok (env, s)
  | e :: rest => do
    let (env, s) ← dupLabelsE e env s
    dupLabelsSeq rest env s

end

/-- Check pass 3: `reportDuplicateLabels` (fresh scope per rule). -/
def reportDuplicateLabels (g : Grammar) (s : Session) : Except String Session :=
  g.rules.foldlM (fun s r => (dupLabelsE r.expression [] s).map (·.2)) s

/-- Diagnostic notes of the left-recursion error, one per backtrace step. -/
def backtraceNotes (bt : List (String × LocationRange)) : List DiagnosticNote :=
  bt.enum.map fun p =>
    ⟨if p.1 + 1 ≠ bt.length
      then s!"Step {p.1 + 1}: call of the rule \"{p.2.1}\" without input consumption"
      else s!"Step {p.1 + 1}: call itself without input consumption - left recursion",
     p.2.2⟩

mutual

/-- Expression traversal of `reportInfiniteRecursion`.  `visited` models the
pass-global `visitedRules` stack and `bt` the `backtraceRefs` stack; both are
threaded because the error path returns without popping.  A `rule_ref` to a
missing rule throws a plain Error (`Could not find rule ...`).  `fuel` bounds
the descent through rules. -/
def infRecE (g : Grammar) (fuel : Nat) (e : Expr) (visited : List String)
    (bt : List (String × LocationRange)) (s : Session) :
    Except String (Session × List String × List (String × LocationRange)) :=
  match e with
  | .rule_ref name _ loc =>
    let bt := bt ++ [(name, loc)]
    match findRule g name with
    | none => .error (s!"Could not find rule {name} while looking for infinite recursive parsers")
    | some rule =>
      if visited.contains name then do
        let visited := visited ++ [name]
        let s ← Session.error s
          ("Possible infinite loop when parsing (left recursion: "
            ++ String.intercalate " -> " visited ++ ")")
          (some rule.nameLocation)
          (some (backtraceNotes bt))
        -- return without popping either stack
        .ok (s, visited, bt)
      else
        match fuel with
        | 0 => .error "fuel exhausted"
        | fuel' + 1 => do
          -- check(rule): push the rule name, visit the body, pop
          let (s, visited, bt) ← infRecE g fuel' rule.expression (visited ++ [name]) bt s
          .ok (s, visited.dropLast, bt.dropLast)
  | .sequence els _ _ => infRecSeq g fuel els visited bt s
  | .choice alts _ _ => infRecL g fuel alts visited bt s
  | .named _ child _ _ => infRecE g fuel child visited bt s
  | .action _ _ child _ _ => infRecE g fuel child visited bt s
  | .labeled _ _ _ child _ _ => infRecE g fuel child visited bt s
  | .text child _ _ => infRecE g fuel child visited bt s
  | .simple_and child _ _ => infRecE g fuel child visited bt s
  | .simple_not child _ _ => infRecE g fuel child visited bt s
  | .optional child _ _ => infRecE g fuel child visited bt s
  | .zero_or_more child _ _ => infRecE g fuel child visited bt s
  | .one_or_more child _ _ => infRecE g fuel child visited bt s
  | .group child _ _ => infRecE g fuel child visited bt s
  | .semantic_and _ _ _ _ => .ok (s, visited, bt)
  | .semantic_not _ _ _ _ => .ok (s, visited, bt)
  | .literal _ _ _ _ => .ok (s, visited, bt)
  | .charClass _ _ _ _ _ => .ok (s, visited, bt)
  | .anyChar _ _ => .ok (s, visited, bt)

/-- Choice alternatives: visited in order (default `choice` traversal). -/
def infRecL (g : Grammar) (fuel : Nat) (es : List Expr) (visited : List String)
    (bt : List (String × LocationRange)) (s : Session) :
    Except String (Session × List String × List (String × LocationRange)) :=
  match es with
  | [] => .ok (s, visited, bt)
  | e :: rest => do
    let (s, visited, bt) ← infRecE g fuel e visited bt s
    infRecL g fuel rest visited bt s

/-- Sequence elements: visit in order but stop as soon as an element always
consumes on success. -/
def infRecSeq (g : Grammar) (fuel : Nat) (es : List Expr) (visited : List String)
    (bt : List (String × LocationRange)) (s : Session) :
    Except String (Session × List String × List (String × LocationRange)) :=
  match es with
  | [] => .ok (s, visited, bt)
  | e :: rest => do
    let (s, visited, bt) ← infRecE g fuel e visited bt s
    match consumes g fuel e with
    | none => .error "fuel exhausted"
    | some true => .ok (s, visited, bt)
    | some false => infRecSeq g fuel rest visited bt s

end

/-- Check pass 4: `reportInfiniteRecursion`.  The grammar traversal enters
each rule through the `rule` handler (push name, visit body, pop). -/
def reportInfiniteRecursion (g : Grammar) (fuel : Nat) (s : Session) :
    Except String Session := do
  let r ← g.rules.foldlM
    (fun acc r => do
      let (s, visited, bt) := acc
      let (s, visited, bt) ← infRecE g fuel r.expression (visited ++ [r.name]) bt s
      pure (s, visited.dropLast, bt))
    ((s, [], []) : Session × List String × List (String × LocationRange))
  .ok r.1

mutual

/-- Expression traversal of `reportInfiniteRepetition`: a `zero_or_more` or
`one_or_more` whose operand does not always consume on success reports a
possible infinite loop.  (The handlers do not recurse into the repetition
operand, mirroring the source's override of the default traversal.) -/
def infRepE (g : Grammar) (fuel : Nat) (e : Expr) (s : Session) :
    Except String Session :=
  match e with
  | .zero_or_more child _ loc =>
    (match consumes g fuel child with
     | none => .error "fuel exhausted"
     | some true => .ok s
     | some false =>
       Session.error s
         "Possible infinite loop when parsing (repetition used with an expression that may not consume any input)"
         (some loc) none)
  | .one_or_more child _ loc =>
    (match consumes g fuel child with
     | none => .error "fuel exhausted"
     | some true => .ok s
     | some false =>
       Session.error s
         "Possible infinite loop when parsing (repetition used with an expression that may not consume any input)"
         (some loc) none)
  | .named _ child _ _ => infRepE g fuel child s
  | .choice alts _ _ => infRepL g fuel alts s
  | .action _ _ child _ _ => infRepE g fuel child s
  | .sequence els _ _ => infRepL g fuel els s
  | .labeled _ _ _ child _ _ => infRepE g fuel child s
  | .text child _ _ => infRepE g fuel child s
  | .simple_and child _ _ => infRepE g fuel child s
  | .simple_not child _ _ => infRepE g fuel child s
  | .optional child _ _ => infRepE g fuel child s
  | .group child _ _ => infRepE g fuel child s
  | .semantic_and _ _ _ _ => .ok s
  | .semantic_not _ _ _ _ => .ok s
  | .rule_ref _ _ _ => .ok s
  | .literal _ _ _ _ => .ok s
  | .charClass _ _ _ _ _ => .ok s
  | .anyChar _ _ => .ok s

/-- List part of `infRepE`. -/
def infRepL (g : Grammar) (fuel : Nat) (es : List Expr) (s : Session) :
    Except String Session :=
  match es with
  | [] => .ok s
  | e :: rest => do
    let s ← infRepE g fuel e s
    infRepL g fuel rest s

end

/-- Check pass 5: `reportInfiniteRepetition`. -/
def reportInfiniteRepetition (g : Grammar) (fuel : Nat) (s : Session) :
    Except String Session :=
  g.rules.foldlM (fun s r => infRepE g fuel r.expression s) s

mutual

/-- Expression traversal of `reportIncorrectPlucking`: a `labeled` node with
`pick` set inside an `Action` (the auxiliary value carries the nearest
enclosing action's code span) is an error; the labeled child is visited with
the value reset. -/
def pluckE (e : Expr) (action? : Option LocationRange) (s : Session) :
    Except String Session :=
  match e with
  | .action _ codeLoc child _ _ => pluckE child (some codeLoc) s
  | .labeled pick _ labelLoc child _ _ => do
    let s ←
      if pick then
        match action? with
        | some actionLoc =>
          Session.error s "\"@\" cannot be used with an action block" (some labelLoc)
            (some [⟨"Action block location", actionLoc⟩])
        | none => .ok s
      else .ok s
    pluckE child none s
  | .named _ child _ _ => pluckE child action? s
  | .choice alts _ _ => pluckL alts action? s
  | .sequence els _ _ => pluckL els action? s
  | .text child _ _ => pluckE child action? s
  | .simple_and child _ _ => pluckE child action? s
  | .simple_not child _ _ => pluckE child action? s
  | .optional child _ _ => pluckE child action? s
  | .zero_or_more child _ _ => pluckE child action? s
  | .one_or_more child _ _ => pluckE child action? s
  | .group child _ _ => pluckE child action? s
  | .semantic_and _ _ _ _ => .ok s
  | .semantic_not _ _ _ _ => .ok s
  | .rule_ref _ _ _ => .ok s
  | .literal _ _ _ _ => .ok s
  | .charClass _ _ _ _ _ => .ok s
  | .anyChar _ _ => .ok s

/-- List part of `pluckE`. -/
def pluckL (es : List Expr) (action? : Option LocationRange) (s : Session) :
    Except String Session :=
  match es with
  | [] => .ok s
  | e :: rest => do
    let s ← pluckE e action? s
    pluckL rest action? s

end

/-- Check pass 6: `reportIncorrectPlucking`. -/
def reportIncorrectPlucking (g : Grammar) (s : Session) : Except String Session :=
  g.rules.foldlM (fun s r => pluckE r.expression none s) s

/-- A compilation failure: either a thrown plain `Error` (message only) or
the `GrammarError` thrown by `checkErrors` at the end of a stage. -/
inductive CompileFailure where
  | jsError (message : String)
  | grammarError (e : ThrownGrammarError)
deriving DecidableEq

/-- Lift a pass result into the driver's error type. -/
def liftJs {α : Type} : Except String α → Except CompileFailure α
  | .ok a => .ok a
  | .error m => .error (.jsError m)

/-- The check-stage portion of `compile`: set the session's stage, emit the
stage/pass progress infos, run the six check passes in registration order and
finally `checkErrors`. -/
def runCheckStage (g : Grammar) (fuel : Nat) (s : Session) :
    Except CompileFailure Session := do
  let s := { s with stage := some Stage.check }
  let s ← liftJs (Session.info s "Process stage check" none none)
  let s ← liftJs (Session.info s "Process pass check.reportUndefinedRules" none none)
  let s ← liftJs (reportUndefinedRules g s)
  let s ← liftJs (Session.info s "Process pass check.reportDuplicateRules" none none)
  let s ← liftJs (reportDuplicateRules g s)
  let s ← liftJs (Session.info s "Process pass check.reportDuplicateLabels" none none)
  let s ← liftJs (reportDuplicateLabels g s)
  let s ← liftJs (Session.info s "Process pass check.reportInfiniteRecursion" none none)
  let s ← liftJs (reportInfiniteRecursion g fuel s)
  let s ← liftJs (Session.info s "Process pass check.reportInfiniteRepetition" none none)
  let s ← liftJs (reportInfiniteRepetition g fuel s)
  let s ← liftJs (Session.info s "Process pass check.reportIncorrectPlucking" none none)
  let s ← liftJs (reportIncorrectPlucking g s)
  match s.checkErrors with
  | .error e => .error (.grammarError e)
  | .ok _ => .ok s

/-! ### Match-result inference: rule environments -/

/-- Rule environment: result of `inference` at a `rule_ref` per rule name. -/
def RuleEnv := String → MatchResult

mutual

/-- Expression handlers of the `inference` visitor (`inferenceMatchResult`).
The `choice` and `sequence` cases inline `inferenceElements` (defined below)
to keep the mutual recursion structural. -/
def inferenceExprEnv (ρ : RuleEnv) : Expr → MatchResult
  | .named _ e _ _ => inferenceExprEnv ρ e
  | .choice alts _ _ =>
    -- inferenceElements(node.alternatives, /* forChoice */ true)
    let c := inferenceCount ρ alts
    if c.1 = alts.length then .always
    else if c.2 = alts.length then .never
    else .sometimes
  | .action _ _ e _ _ => inferenceExprEnv ρ e
  | .sequence els _ _ =>
    -- inferenceElements(node.elements, /* forChoice */ false)
    let c := inferenceCount ρ els
    if c.1 = els.length then .always
    else if 0 < c.2 then .never
    else .sometimes
  | .labeled _ _ _ e _ _ => inferenceExprEnv ρ e
  | .text e _ _ => inferenceExprEnv ρ e
  | .simple_and e _ _ => inferenceExprEnv ρ e
  | .simple_not e _ _ => (inferenceExprEnv ρ e).neg
  | .optional _ _ _ => .always
  | .zero_or_more _ _ _ => .always
  | .one_or_more e _ _ => inferenceExprEnv ρ e
  | .group e _ _ => inferenceExprEnv ρ e
  | .semantic_and _ _ _ _ => .sometimes
  | .semantic_not _ _ _ _ => .sometimes
  | .rule_ref name _ _ => ρ name
  | .literal v _ _ _ => if v.length = 0 then .always else .sometimes
  | .charClass parts _ _ _ _ => if parts.length = 0 then .never else .sometimes
  | .anyChar _ _ => .sometimes

/-- The counting loop of `inferenceElements`: how many elements infer to
ALWAYS (first component) and to NEVER (second component). -/
def inferenceCount (ρ : RuleEnv) : List Expr → Nat × Nat
  | [] => (0, 0)
  | e :: rest =>
    let r := inferenceExprEnv ρ e
    let c := inferenceCount ρ rest
    (c.1 + (if r = .always then 1 else 0), c.2 + (if r = .never then 1 else 0))

end

/-- `inferenceElements(elements, forChoice)` of the source: ALWAYS when all
elements are ALWAYS; otherwise for a choice NEVER when all are NEVER, and
for a sequence NEVER when at least one is NEVER; SOMETIMES otherwise. -/
def inferenceElements (ρ : RuleEnv) (forChoice : Bool) (elements : List Expr) : MatchResult :=
  let c := inferenceCount ρ elements
  if c.1 = elements.length then .always
  else if forChoice then (if c.2 = elements.length then .never else .sometimes)
  else (if 0 < c.2 then .never else .sometimes)

/-- Environment update for the rule whose fixed point is being computed:
a `rule_ref` back to it reads its current `match` property. -/
def setRuleMatch (ρ : RuleEnv) (self : String) (m : MatchResult) : RuleEnv :=
  fun n => if n = self then m else ρ n

/-- The do/while fixed-point loop of the `rule` handler.  `remaining` is the
number of loop bodies the canary still allows (6 at entry, mirroring
`if (++count > 6) throw new GrammarError("Infinity cycle detected ...")`);
`none` models that thrown internal error. -/
def ruleMatchLoop (ρ : RuleEnv) (self : String) (body : Expr) :
    Nat → MatchResult → Option MatchResult
  | 0, _ => none
  | remaining + 1, current =>
    let next := inferenceExprEnv (setRuleMatch ρ self current) body
    if next = current then some next else ruleMatchLoop ρ self body remaining next

/-- The `rule` handler's fixed point: `match` is initialized to SOMETIMES and
the body re-inferred until the result stops changing; at most 6 iterations
are allowed before the internal error is raised. -/
def inferRuleMatch (ρ : RuleEnv) (self : String) (body : Expr) : Option MatchResult :=
  ruleMatchLoop ρ self body 6 .sometimes

/-- Relation used to analyse the fixed-point loop: a resolved result
(ALWAYS or NEVER) stays the same resolved result. -/
def PreservesResolved (a b : MatchResult) : Prop :=
  (a = .always → b = .always) ∧ (a = .never → b = .never)

/-! ### The `inferenceMatchResult` pass entry point

The pass body is `inference(ast)`.  The `inference` visitor is built with
`buildExprVisitor`, which supplies defaults only for single-child expression
nodes; the pass explicitly supplies `grammar: ignoreNode` (with
`ignoreNode = () => MatchResult.NEVER`).  Dispatch on the grammar root
therefore selects `ignoreNode`, which returns NEVER without visiting the
initializers or the rules, so the pass mutates nothing: the rule-level
fixed point (`inferRuleMatch`) and the expression handlers
(`inferenceExprEnv`) are unreachable from this entry point. -/

/-- The `ignoreNode` handler: return NEVER, visit nothing. -/
def ignoreNode : MatchResult := .never

/-- Dispatch of `inference` at the grammar root: the `grammar: ignoreNode`
handler is selected; the grammar is returned unvisited and unannotated. -/
def inferenceVisitGrammar (g : Grammar) : Grammar × MatchResult :=
  (g, ignoreNode)

/-- The whole `inferenceMatchResult` pass: `inference(ast)` on the grammar
root. -/
def inferenceMatchResultPass (g : Grammar) : Grammar × MatchResult :=
  inferenceVisitGrammar g

mutual

/-- Does every node of this expression tree carry a `match` annotation? -/
def exprFullyAnnotated : Expr → Bool
  | .named _ e m _ => m.isSome && exprFullyAnnotated e
  | .choice alts m _ => m.isSome && exprListFullyAnnotated alts
  | .action _ _ e m _ => m.isSome && exprFullyAnnotated e
  | .sequence els m _ => m.isSome && exprListFullyAnnotated els
  | .labeled _ _ _ e m _ => m.isSome && exprFullyAnnotated e
  | .text e m _ => m.isSome && exprFullyAnnotated e
  | .simple_and e m _ => m.isSome && exprFullyAnnotated e
  | .simple_not e m _ => m.isSome && exprFullyAnnotated e
  | .optional e m _ => m.isSome && exprFullyAnnotated e
  | .zero_or_more e m _ => m.isSome && exprFullyAnnotated e
  | .one_or_more e m _ => m.isSome && exprFullyAnnotated e
  | .group e m _ => m.isSome && exprFullyAnnotated e
  | .semantic_and _ _ m _ => m.isSome
  | .semantic_not _ _ m _ => m.isSome
  | .rule_ref _ m _ => m.isSome
  | .literal _ _ m _ => m.isSome
  | .charClass _ _ _ m _ => m.isSome
  | .anyChar m _ => m.isSome

/-- List part of `exprFullyAnnotated`. -/
def exprListFullyAnnotated : List Expr → Bool
  | [] => true
  | e :: rest => exprFullyAnnotated e && exprListFullyAnnotated rest

end

/-- Does every expression node of the grammar (each rule and its body) carry
a `match` annotation? -/
def grammarFullyAnnotated (g : Grammar) : Bool :=
  g.rules.all (fun r => r.m?.isSome && exprFullyAnnotated r.expression)

/-! ### Transform pass `removeProxyRules`

`replaceRuleRefs(ast, from, to)` mutates the `name` of every `rule_ref` to
`from` into `to`, throwing `Rule <to> was not found during proxy removal`
when the target is missing and emitting one informational diagnostic per
rewritten node.  The rewrite is modelled by a pure renaming plus a wrapper:
since rule names are never changed, `findRule(ast, to)` has the same outcome
at every rewritten node, so throwing once up front when at least one node
matches is observably the thrown first-node error of the source. -/

/-- The renaming a single `replaceRuleRefs` call applies to reference names. -/
def renameName (frm tgt n : String) : String :=
  if n = frm then tgt else n

mutual

/-- Rename every `rule_ref` to `frm` into a `rule_ref` to `tgt`
(the `node.name = to` mutation). -/
def renameRefsE (frm tgt : String) : Expr → Expr
  | .named n e m l => .named n (renameRefsE frm tgt e) m l
  | .choice alts m l => .choice (renameRefsL frm tgt alts) m l
  | .action c cl e m l => .action c cl (renameRefsE frm tgt e) m l
  | .sequence els m l => .sequence (renameRefsL frm tgt els) m l
  | .labeled p lb ll e m l => .labeled p lb ll (renameRefsE frm tgt e) m l
  | .text e m l => .text (renameRefsE frm tgt e) m l
  | .simple_and e m l => .simple_and (renameRefsE frm tgt e) m l
  | .simple_not e m l => .simple_not (renameRefsE frm tgt e) m l
  | .optional e m l => .optional (renameRefsE frm tgt e) m l
  | .zero_or_more e m l => .zero_or_more (renameRefsE frm tgt e) m l
  | .one_or_more e m l => .one_or_more (renameRefsE frm tgt e) m l
  | .group e m l => .group (renameRefsE frm tgt e) m l
  | .semantic_and c cl m l => .semantic_and c cl m l
  | .semantic_not c cl m l => .semantic_not c cl m l
  | .rule_ref n m l => .rule_ref (renameName frm tgt n) m l
  | .literal v ic m l => .literal v ic m l
  | .charClass p i ic m l => .charClass p i ic m l
  | .anyChar m l => .anyChar m l

/-- List part of `renameRefsE`. -/
def renameRefsL (frm tgt : String) : List Expr → List Expr
  | [] => []
  | e :: rest => renameRefsE frm tgt e :: renameRefsL frm tgt rest

end

mutual

/-- All rule names referenced by `rule_ref` nodes, in traversal order. -/
def exprRefs : Expr → List String
  | .named _ e _ _ => exprRefs e
  | .choice alts _ _ => exprRefsL alts
  | .action _ _ e _ _ => exprRefs e
  | .sequence els _ _ => exprRefsL els
  | .labeled _ _ _ e _ _ => exprRefs e
  | .text e _ _ => exprRefs e
  | .simple_and e _ _ => exprRefs e
  | .simple_not e _ _ => exprRefs e
  | .optional e _ _ => exprRefs e
  | .zero_or_more e _ _ => exprRefs e
  | .one_or_more e _ _ => exprRefs e
  | .group e _ _ => exprRefs e
  | .semantic_and _ _ _ _ => []
  | .semantic_not _ _ _ _ => []
  | .rule_ref n _ _ => [n]
  | .literal _ _ _ _ => []
  | .charClass _ _ _ _ _ => []
  | .anyChar _ _ => []

/-- List part of `exprRefs`. -/
def exprRefsL : List Expr → List String
  | [] => []
  | e :: rest => exprRefs e ++ exprRefsL rest

end

mutual

/-- Locations of the `rule_ref` nodes with the given name, traversal order
(used for the informational diagnostics of `replaceRuleRefs`). -/
def refLocsE (name : String) : Expr → List LocationRange
  | .named _ e _ _ => refLocsE name e
  | .choice alts _ _ => refLocsL name alts
  | .action _ _ e _ _ => refLocsE name e
  | .sequence els _ _ => refLocsL name els
  | .labeled _ _ _ e _ _ => refLocsE name e
  | .text e _ _ => refLocsE name e
  | .simple_and e _ _ => refLocsE name e
  | .simple_not e _ _ => refLocsE name e
  | .optional e _ _ => refLocsE name e
  | .zero_or_more e _ _ => refLocsE name e
  | .one_or_more e _ _ => refLocsE name e
  | .group e _ _ => refLocsE name e
  | .semantic_and _ _ _ _ => []
  | .semantic_not _ _ _ _ => []
  | .rule_ref n _ loc => if n = name then [loc] else []
  | .literal _ _ _ _ => []
  | .charClass _ _ _ _ _ => []
  | .anyChar _ _ => []

/-- List part of `refLocsE`. -/
def refLocsL (name : String) : List Expr → List LocationRange
  | [] => []
  | e :: rest => refLocsE name e ++ refLocsL name rest

end

/-- The per-rule effect of one `replaceRuleRefs` call. -/
def mapRule (frm tgt : String) (r : Rule) : Rule :=
  { r with expression := renameRefsE frm tgt r.expression }

/-- Is this rule a proxy (its body exactly a `rule_ref`)? -/
def isProxy (r : Rule) : Bool :=
  match r.expression with
  | .rule_ref _ _ _ => true
  | _ => false

/-- The target of a proxy rule's body, when the body is a `rule_ref`. -/
def proxyTarget? (r : Rule) : Option String :=
  match r.expression with
  | .rule_ref n _ _ => some n
  | _ => none

/-- `replaceRuleRefs(ast, from, to)` as a grammar transformer.  When no
`rule_ref` matches, nothing happens; otherwise the missing-target throw
fires, or every match is renamed with one info diagnostic each (note at the
target's name span). -/
def replaceRuleRefs (g : Grammar) (frm tgt : String) (s : Session) :
    Except String (Grammar × Session) :=
  let locs := (g.rules.map (fun r => refLocsE frm r.expression)).flatten
  if locs.isEmpty then .ok (g, s)
  else
    match findRule g tgt with
    | none => .error (s!"Rule {tgt} was not found during proxy removal")
    | some target => do
      let s ← locs.foldlM
        (fun s loc =>
          Session.info s (s!"Proxy rule \"{frm}\" replaced by the rule \"{tgt}\"")
            (some loc) (some [⟨"This rule will be used", target.nameLocation⟩])) s
      .ok ({ g with rules := g.rules.map (mapRule frm tgt) }, s)

/-- The `forEach` of `removeProxyRules` over rule indices: at each index
holding a proxy, rewrite its references (against the current, partially
rewritten grammar) and collect the index unless the proxy is an allowed
start rule.  `n` counts the remaining iterations (the array's length is
fixed during the loop). -/
def proxyLoop (allowed : List String) :
    Nat → Nat → Grammar → Session → List Nat →
    Except String (Grammar × Session × List Nat)
  | 0, _, g, s, idxs => .ok (g, s, idxs)
  | n + 1, i, g, s, idxs =>
    match g.rules[i]? with
    | none => .ok (g, s, idxs)
    | some r =>
      match r.expression with
      | .rule_ref tgt _ _ => do
        let (g', s') ← replaceRuleRefs g r.name tgt s
        proxyLoop allowed n (i + 1) g' s'
          (if r.name ∈ allowed then idxs else idxs ++ [i])
      | _ => proxyLoop allowed n (i + 1) g s idxs

/-- The final removal: splice the collected indices out in reverse order so
earlier indices remain valid. -/
def spliceOut (idxs : List Nat) (rules : List Rule) : List Rule :=
  idxs.reverse.foldl (fun rs i => rs.eraseIdx i) rules

/-- The `removeProxyRules` pass. -/
def removeProxyRules (g : Grammar) (allowed : List String) (s : Session) :
    Except String (Grammar × Session) := do
  let (g', s', idxs) ← proxyLoop allowed g.rules.length 0 g s []
  .ok ({ g' with rules := spliceOut idxs g'.rules }, s')

/-- One step of a grammar's proxy graph: a rule named `a` whose body is
exactly a reference to `b`. -/
def ProxyStep (g : Grammar) (a b : String) : Prop :=
  ∃ r ∈ g.rules, r.name = a ∧ proxyTarget? r = some b

/-- Reference filter of the collected removal indices: position `k` holds a
proxy whose name is not an allowed start rule. -/
def removableAt (g0 : Grammar) (allowed : List String) (k : Nat) : Bool :=
  match g0.rules[k]? with
  | some r => isProxy r && !(decide (r.name ∈ allowed))
  | none => false

/-- Pointwise shape agreement between two rule lists: same length, same
names, same proxy-ness at every position (reference rewriting never changes
these). -/
def ShapeEq (rs0 rs : List Rule) : Prop :=
  rs.length = rs0.length
  ∧ ∀ k : Nat, ((rs[k]?).map Rule.name = (rs0[k]?).map Rule.name)
      ∧ ((rs[k]?).map isProxy = (rs0[k]?).map isProxy)

/-- Names of the proxy rules among the first `i` rules of a grammar (the
proxies the loop has already processed when it reaches index `i`). -/
def proxyNamesBefore (g0 : Grammar) (i : Nat) : List String :=
  ((g0.rules.take i).filter isProxy).map Rule.name

/-- Specification-side mirror of the reverse splice: keep the rules whose
position is not collected (`k` is the position of the list's head). -/
def removeIdxs (idxs : List Nat) : List Rule → Nat → List Rule
  | [], _ => []
  | r :: rs, k =>
    if k ∈ idxs then removeIdxs idxs rs (k + 1) else r :: removeIdxs idxs rs (k + 1)

/-! ### The driver's option validation (`compile` and `parseOptions`) -/

/-- Output mode of `compile` (the members of the `output` union the
validation distinguishes). -/
inductive OutputMode where
  | parserO
  | sourceO
  | sourceAndMap
  | sourceWithInlineMap
  | astO
deriving DecidableEq

/-- The part of `RawOptions` inspected by the driver's validation.
`grammarSource` is kept when it is a string (the source-map check tests
`typeof options.grammarSource === "string"`). -/
structure RawOptions where
  allowedStartRules : Option (List String) := none
  output : Option OutputMode := none
  grammarSource : Option String := none
deriving DecidableEq

/-- The validated options the passes receive. -/
structure ParsedOptions where
  allowedStartRules : List String
  output : OutputMode := .parserO
  grammarSource : Option String := none
deriving DecidableEq

/-- `parseOptions`: the destructuring default for `allowedStartRules` calls
`getFirstRule()`, which throws `Must have at least one start rule` when the
grammar has no rules and otherwise yields the first rule's name. -/
def parseOptions (g : Grammar) (o : RawOptions) : Except String ParsedOptions := do
  let asr ←
    match o.allowedStartRules with
    | some xs => Except.ok xs
    | none =>
      match g.rules with
      | [] => Except.error "Must have at least one start rule"
      | r :: _ => Except.ok [r.name]
  Except.ok { allowedStartRules := asr, output := o.output.getD .parserO,
              grammarSource := o.grammarSource }

/-- The `compile` driver up to and including the stage loop.  The passes are
abstracted as functions on `(Grammar, Session)` (stage bookkeeping and
per-stage `checkErrors` are modelled separately, see `runCheckStage`); what
matters here is the validation order: `parseOptions` (with its
`getFirstRule` default), then `*` expansion and the unknown-start-rule
check, then the source-map `grammarSource` requirement, and only then the
passes. -/
def compileDriver (g : Grammar) (o : RawOptions)
    (passes : List (Grammar → Session → Except String (Grammar × Session))) :
    Except String (Grammar × Session) := do
  let options ← parseOptions g o
  let allRules := g.rules.map (·.name)
  let asr ←
    if options.allowedStartRules.any (· == "*") then Except.ok allRules
    else
      match options.allowedStartRules.find? (fun r => !(allRules.contains r)) with
      | some rule => Except.error (s!"Unknown start rule \"{rule}\"")
      | none => Except.ok options.allowedStartRules
  let options := { options with allowedStartRules := asr }
  if (options.output == .sourceAndMap || options.output == .sourceWithInlineMap)
      && (match options.grammarSource with
          | none => true
          | some src => src.length == 0) then
    Except.error "Must provide grammarSource (as a string) in order to generate source maps"
  else
    passes.foldlM (fun p pass => pass p.1 p.2) (g, ({} : Session))

/-! ### `generateBytecode` (src/unnamed/part_002)

The generator is a JS closure over four constant pools and the grammar.  We
model the pools as an explicit state `GenSt` and the `Context` record as
`Ctx`.  The in-place mutation of `context.env` / `context.pluck` (the
`labeled` handler writes `context.env[label] = sp` and
`context.pluck.push(sp)` into objects *shared* with the caller) is modelled
by returning the possibly-updated environment and pluck list from
`generate`: a caller that passed the shared object adopts the returned
values, a caller that passed a copy (`{...context.env}`) discards them.
`context.action` is never mutated.  JS `null` pool indices
(`number | null`) are `Option Nat` here, coerced by `poolIdx` with sentinel
`-1`; every such `null` is emitted only inside a branch that
`buildCondition` discards (its `match` is then `ALWAYS` or `NEVER`), so the
sentinel never reaches emitted bytecode of the reachable branches. -/

/-- Bytecode: a flat list of opcodes and operands (JS `number[]`). -/
abbrev Bytecode := List Int

/-- Label environment `Record<string, number>`, in insertion order; its keys
are unique because bindings are only ever created through `envSet`. -/
abbrev Env := List (String × Int)

/-- `env[k] = v`: update an existing binding in place (keeping its insertion
position) or append a new one — JS object-assignment semantics. -/
def envSet (env : Env) (k : String) (v : Int) : Env :=
  match env with
  | [] => [(k, v)]
  | (k', v') :: rest => if k' = k then (k, v) :: rest else (k', v') :: envSet rest k v

/-- `env[k]` read. -/
def envLookup (env : Env) (k : String) : Option Int :=
  (env.find? (fun p => p.1 == k)).map (fun p => p.2)

/-- `Object.keys(env)`, in insertion order. -/
def envKeys (env : Env) : List String := env.map (fun p => p.1)

/-! The opcode numbers of src/lib/compiler/opcodes (as listed instruction by
instruction in the generator's header comment). -/

namespace op

def PUSH_EMPTY_STRING : Int := 35

def PUSH_UNDEFINED : Int := 1

def PUSH_NULL : Int := 2

def PUSH_FAILED : Int := 3

def PUSH_EMPTY_ARRAY : Int := 4

def PUSH_CURR_POS : Int := 5

def POP : Int := 6

def POP_CURR_POS : Int := 7

def POP_N : Int := 8

def NIP : Int := 9

def APPEND : Int := 10

def WRAP : Int := 11

def TEXT : Int := 12

def PLUCK : Int := 36

def IF : Int := 13

def IF_ERROR : Int := 14

def IF_NOT_ERROR : Int := 15

def WHILE_NOT_ERROR : Int := 16

def MATCH_ANY : Int := 17

def MATCH_STRING : Int := 18

def MATCH_STRING_IC : Int := 19

def MATCH_CHAR_CLASS : Int := 20

def ACCEPT_N : Int := 21

def ACCEPT_STRING : Int := 22

def FAIL : Int := 23

def LOAD_SAVED_POS : Int := 24

def UPDATE_SAVED_POS : Int := 25

def CALL : Int := 26

def RULE : Int := 27

def SILENT_FAILS_ON : Int := 28

def SILENT_FAILS_OFF : Int := 29

end op

/-- Generator context (`interface Context`): `pluck` is optional (a missing
key reads as `undefined`), `action` holds the enclosing action node's code
and code span. -/
structure Ctx where
  sp : Int
  env : Env
  pluck : Option (List Int) := none
  action : Option (String × LocationRange) := none

/-- The four constant pools of the generator closure, in insertion order. -/
structure GenSt where
  literals : List String := []
  classes : List CharClassDesc := []
  expectations : List ExpectedConst := []
  functions : List FunctionDesc := []

/-- `addLiteralConst`: index of the value in the pool, appending when absent
(`indexOf` / `push` in the source). -/
def addLiteralConst (st : GenSt) (value : String) : Nat × GenSt :=
  match st.literals.findIdx? (fun v => v == value) with
  | some index => (index, st)
  | none => (st.literals.length, { st with literals := st.literals ++ [value] })

/-- `addClassConst`: structural dedup (the source compares `JSON.stringify`
patterns, which on these records is structural equality). -/
def addClassConst (st : GenSt) (cls : CharClassDesc) : Nat × GenSt :=
  match st.classes.findIdx? (fun c => c == cls) with
  | some index => (index, st)
  | none => (st.classes.length, { st with classes := st.classes ++ [cls] })

/-- `addExpectedConst`, same dedup discipline. -/
def addExpectedConst (st : GenSt) (expected : ExpectedConst) : Nat × GenSt :=
  match st.expectations.findIdx? (fun e => e == expected) with
  | some index => (index, st)
  | none => (st.expectations.length,
      { st with expectations := st.expectations ++ [expected] })

/-- `addFunctionConst(predicate, params, node)` (reads `node.code` and
`node.codeLocation`). -/
def addFunctionConst (st : GenSt) (predicate : Bool) (params : List String)
    (code : String) (codeLocation : LocationRange) : Nat × GenSt :=
  let func : FunctionDesc := ⟨predicate, params, code, codeLocation⟩
  match st.functions.findIdx? (fun f => f == func) with
  | some index => (index, st)
  | none => (st.functions.length, { st with functions := st.functions ++ [func] })

/-- JS `null` pool-index sentinel (see the section comment: it is emitted
only into branches `buildCondition` drops). -/
def poolIdx : Option Nat → Int
  | some n => (n : Int)
  | none => -1

/-- `node.match || MatchResult.SOMETIMES` (SOMETIMES is the falsy `0`, so
the default also applies to an explicit SOMETIMES annotation). -/
def matchOf (m? : Option MatchResult) : MatchResult := m?.getD .sometimes

/-- The `match` annotation of an expression node (`node.match`). -/
def Expr.matchField : Expr → Option MatchResult
  | .named _ _ m _ => m
  | .choice _ m _ => m
  | .action _ _ _ m _ => m
  | .sequence _ m _ => m
  | .labeled _ _ _ _ m _ => m
  | .text _ m _ => m
  | .simple_and _ m _ => m
  | .simple_not _ m _ => m
  | .optional _ m _ => m
  | .zero_or_more _ m _ => m
  | .one_or_more _ m _ => m
  | .group _ m _ => m
  | .semantic_and _ _ m _ => m
  | .semantic_not _ _ m _ => m
  | .rule_ref _ m _ => m
  | .literal _ _ m _ => m
  | .charClass _ _ _ m _ => m
  | .anyChar m _ => m

/-- `buildCondition(match, condCode, thenCode, elseCode)`. -/
def buildCondition (m : MatchResult) (condCode thenCode elseCode : Bytecode) : Bytecode :=
  match m with
  | .always => thenCode
  | .never => elseCode
  | .sometimes =>
      condCode ++ [(thenCode.length : Int), (elseCode.length : Int)] ++ thenCode ++ elseCode

/-- `buildLoop(condCode, bodyCode)`. -/
def buildLoop (condCode bodyCode : Bytecode) : Bytecode :=
  condCode ++ [(bodyCode.length : Int)] ++ bodyCode

/-- `buildCall(functionIndex, delta, env, sp)`; with unique keys,
`Object.keys(env).map(name => sp - env[name])` is the value column of the
environment in insertion order. -/
def buildCall (functionIndex : Int) (delta : Int) (env : Env) (sp : Int) : Bytecode :=
  [op.CALL, functionIndex, delta, (env.length : Int)] ++ env.map (fun p => sp - p.2)

/-- `buildAppendLoop(expressionCode)`. -/
def buildAppendLoop (expressionCode : Bytecode) : Bytecode :=
  buildLoop [op.WHILE_NOT_ERROR] ([op.APPEND] ++ expressionCode)

/-- `buildSemanticPredicate(node, negative, context)` (no recursion into
children; returns the bytecode together with the updated pools). -/
def buildSemanticPredicate (code : String) (codeLocation : LocationRange)
    (m? : Option MatchResult) (negative : Bool) (ctx : Ctx) (st : GenSt) :
    Bytecode × GenSt :=
  let (functionIndex, st') := addFunctionConst st true (envKeys ctx.env) code codeLocation
  ([op.UPDATE_SAVED_POS] ++ buildCall functionIndex 0 ctx.env ctx.sp
    ++ buildCondition (matchOf m?) [op.IF]
        ([op.POP] ++ [if negative then op.PUSH_FAILED else op.PUSH_UNDEFINED])
        ([op.POP] ++ [if negative then op.PUSH_UNDEFINED else op.PUSH_FAILED]),
    st')

/-- The `emitCall` flag of the `action` handler:
`node.expression.type !== "sequence" || node.expression.elements.length === 0`. -/
def emitCallOf : Expr → Bool
  | .sequence elements _ _ => elements.isEmpty
  | _ => true

/-- The pick-handling prefix of the `labeled` handler:
`if (node.pick) { if (!context.pluck) throw ...; context.pluck.push(sp); }`. -/
def pushPluck (pick : Bool) (pluck : Option (List Int)) (sp : Int) :
    Except String (Option (List Int)) :=
  if pick then
    match pluck with
    | none => .error "Impossible"
    | some pl => .ok (some (pl ++ [sp]))
  else .ok pluck

/-- The shared tail of the empty-elements case of `buildElementsCode` (the
`context.action` / plain-wrap alternatives, reached when nothing was
plucked). -/
def buildElementsTail (total : Nat) (ctx : Ctx) (st : GenSt) : Bytecode × GenSt :=
  match ctx.action with
  | some (actionCode, actionLoc) =>
      let (functionIndex, st') :=
        addFunctionConst st false (envKeys ctx.env) actionCode actionLoc
      ([op.LOAD_SAVED_POS, (total : Int)]
        ++ buildCall (functionIndex : Int) ((total : Int) + 1) ctx.env ctx.sp, st')
  | none => ([op.WRAP, (total : Int)] ++ [op.NIP], st)

mutual

/-- The `generate` visitor on expression nodes (the grammar/rule handlers
are `generateBytecode`/`genRule` below; `context` is non-null in all the
handlers embedded here — the source's null-context `Impossible` throws
cannot fire because the rule handler always passes a full context). -/
def generate (g : Grammar) (node : Expr) (ctx : Ctx) (st : GenSt) :
    Except String (Bytecode × Env × Option (List Int) × GenSt) :=
  match node with
  | .named name expression m? _loc =>
      let m := matchOf m?
      -- Expectation not required if node always fail
      let (nameIndex, st1) :=
        if m = .never then ((none : Option Nat), st)
        else
          let (i, st') := addExpectedConst st (.ruleE name)
          (some i, st')
      -- `generate(node.expression, context)`: the context object itself is
      -- passed on, so the child's env/pluck mutations flow back.
      (generate g expression ctx st1).bind fun (code, env', pluck', st2) =>
        .ok ([op.SILENT_FAILS_ON] ++ code ++ [op.SILENT_FAILS_OFF]
              ++ buildCondition m [op.IF_ERROR] [op.FAIL, poolIdx nameIndex] [],
            env', pluck', st2)
  | .choice alternatives _m? _loc =>
      (buildAlternativesCode g alternatives ctx st).bind fun (code, st') =>
        .ok (code, ctx.env, ctx.pluck, st')
  | .action code codeLocation expression _m? _loc =>
      let emitCall : Bool := emitCallOf expression
      -- `const env = {...context.env}` — the child mutates this copy, which
      -- the handler then reads back (`Object.keys(env)`) as `env'`.
      (generate g expression
          ⟨ctx.sp + (if emitCall then 1 else 0), ctx.env, none,
            some (code, codeLocation)⟩ st).bind fun (expressionCode, env', _pluck', st1) =>
        let m := matchOf expression.matchField
        -- Function only required if expression can match
        let (functionIndex, st2) :=
          if emitCall ∧ m ≠ .never then
            let (i, st') := addFunctionConst st1 false (envKeys env') code codeLocation
            ((some i : Option Nat), st')
          else (none, st1)
        if emitCall then
          .ok ([op.PUSH_CURR_POS] ++ expressionCode
                ++ buildCondition m [op.IF_NOT_ERROR]
                    ([op.LOAD_SAVED_POS, 1]
                      ++ buildCall (poolIdx functionIndex) 1 env' (ctx.sp + 2))
                    []
                ++ [op.NIP],
              ctx.env, ctx.pluck, st2)
        else .ok (expressionCode, ctx.env, ctx.pluck, st2)
  | .sequence elements _m? _loc =>
      -- The inner context shares the caller's env (label bindings escape a
      -- sequence) and starts a fresh pluck list.
      (buildElementsCode g elements.length elements
          ⟨ctx.sp + 1, ctx.env, some [], ctx.action⟩ st).bind fun (code, env', _pluck', st') =>
        .ok ([op.PUSH_CURR_POS] ++ code, env', ctx.pluck, st')
  | .labeled pick label _labelLocation expression _m? _loc =>
      let sp := ctx.sp + 1
      -- `context.pluck.push(sp)` fires before the child is generated and
      -- mutates the caller's list; a missing pluck is the `Impossible` throw.
      (pushPluck pick ctx.pluck sp).bind fun pluckOut =>
        (generate g expression ⟨ctx.sp, ctx.env, none, none⟩ st).bind
          fun (code, env', _pluck', st') =>
            match label with
            | some l =>
                -- `env = {...context.env}; context.env[label] = sp`: the
                -- child saw the pre-binding copy (its mutations are
                -- dropped) and the caller's shared env gains the binding.
                .ok (code, envSet ctx.env l sp, pluckOut, st')
            | none =>
                -- `env === context.env`: the child shared the caller's env.
                .ok (code, env', pluckOut, st')
  | .text expression m? _loc =>
      (generate g expression ⟨ctx.sp + 1, ctx.env, none, none⟩ st).bind
        fun (code, _env', _pluck', st') =>
          .ok ([op.PUSH_CURR_POS] ++ code
                ++ buildCondition (matchOf m?) [op.IF_NOT_ERROR]
                    ([op.POP] ++ [op.TEXT]) [op.NIP],
              ctx.env, ctx.pluck, st')
  | .simple_and expression _m? _loc => buildSimplePredicate g expression false ctx st
  | .simple_not expression _m? _loc => buildSimplePredicate g expression true ctx st
  | .optional expression _m? _loc =>
      (generate g expression ⟨ctx.sp, ctx.env, none, none⟩ st).bind
        fun (code, _env', _pluck', st') =>
          -- Condition on the expression match, not the node match
          .ok (code ++ buildCondition (matchOf expression.matchField).neg [op.IF_ERROR]
                  ([op.POP] ++ [op.PUSH_NULL]) [],
              ctx.env, ctx.pluck, st')
  | .zero_or_more expression _m? _loc =>
      (generate g expression ⟨ctx.sp + 1, ctx.env, none, none⟩ st).bind
        fun (expressionCode, _env', _pluck', st') =>
          .ok ([op.PUSH_EMPTY_ARRAY] ++ expressionCode
                ++ buildAppendLoop expressionCode ++ [op.POP],
              ctx.env, ctx.pluck, st')
  | .one_or_more expression _m? _loc =>
      (generate g expression ⟨ctx.sp + 1, ctx.env, none, none⟩ st).bind
        fun (expressionCode, _env', _pluck', st') =>
          .ok ([op.PUSH_EMPTY_ARRAY] ++ expressionCode
                ++ buildCondition (matchOf expression.matchField) [op.IF_NOT_ERROR]
                    (buildAppendLoop expressionCode ++ [op.POP])
                    ([op.POP] ++ [op.POP] ++ [op.PUSH_FAILED]),
              ctx.env, ctx.pluck, st')
  | .group expression _m? _loc =>
      (generate g expression ⟨ctx.sp, ctx.env, none, none⟩ st).bind
        fun (code, _env', _pluck', st') => .ok (code, ctx.env, ctx.pluck, st')
  | .semantic_and code codeLocation m? _loc =>
      let (bc, st') := buildSemanticPredicate code codeLocation m? false ctx st
      .ok (bc, ctx.env, ctx.pluck, st')
  | .semantic_not code codeLocation m? _loc =>
      let (bc, st') := buildSemanticPredicate code codeLocation m? true ctx st
      .ok (bc, ctx.env, ctx.pluck, st')
  | .rule_ref name _m? _loc =>
      .ok ([op.RULE, indexOfRule g name], ctx.env, ctx.pluck, st)
  | .literal value ignoreCase m? _loc =>
      if value.length > 0 then
        let m := matchOf m?
        -- String only required if condition is generated or string is
        -- case-sensitive and node always match
        let needConst := m = .sometimes ∨ (m = .always ∧ ignoreCase = false)
        let (stringIndex, st1) :=
          if needConst then
            let (i, st') := addLiteralConst st (if ignoreCase then value.toLower else value)
            ((some i : Option Nat), st')
          else (none, st)
        -- Expectation not required if node always match
        let (expectedIndex, st2) :=
          if m ≠ .always then
            let (i, st') := addExpectedConst st1 (.literalE value ignoreCase)
            ((some i : Option Nat), st')
          else (none, st1)
        .ok (buildCondition m
              (if ignoreCase then [op.MATCH_STRING_IC, poolIdx stringIndex]
                else [op.MATCH_STRING, poolIdx stringIndex])
              (if ignoreCase then [op.ACCEPT_N, (value.length : Int)]
                else [op.ACCEPT_STRING, poolIdx stringIndex])
              [op.FAIL, poolIdx expectedIndex],
            ctx.env, ctx.pluck, st2)
      else .ok ([op.PUSH_EMPTY_STRING], ctx.env, ctx.pluck, st)
  | .charClass parts inverted ignoreCase m? _loc =>
      let m := matchOf m?
      -- Character class constant only required if condition is generated
      let (classIndex, st1) :=
        if m = .sometimes then
          let (i, st') := addClassConst st ⟨parts, inverted, ignoreCase⟩
          ((some i : Option Nat), st')
        else (none, st)
      let (expectedIndex, st2) :=
        if m ≠ .always then
          let (i, st') := addExpectedConst st1 (.classE parts inverted ignoreCase)
          ((some i : Option Nat), st')
        else (none, st1)
      .ok (buildCondition m [op.MATCH_CHAR_CLASS, poolIdx classIndex]
            [op.ACCEPT_N, 1] [op.FAIL, poolIdx expectedIndex],
          ctx.env, ctx.pluck, st2)
  | .anyChar m? _loc =>
      let m := matchOf m?
      let (expectedIndex, st1) :=
        if m ≠ .always then
          let (i, st') := addExpectedConst st .anyE
          ((some i : Option Nat), st')
        else (none, st)
      .ok (buildCondition m [op.MATCH_ANY] [op.ACCEPT_N, 1]
            [op.FAIL, poolIdx expectedIndex],
          ctx.env, ctx.pluck, st1)
termination_by (sizeOf node, 0)

/-- The `buildAlternativesCode` recursion of the `choice` handler (each
alternative gets an env copy and no pluck, so nothing flows back but the
pools). -/
def buildAlternativesCode (g : Grammar) (alternatives : List Expr) (ctx : Ctx)
    (st : GenSt) : Except String (Bytecode × GenSt) :=
  match alternatives with
  | [] => .error "TypeError: alternatives is empty"  -- `alternatives[0]` on []
  | a :: rest =>
      let m := matchOf a.matchField
      (generate g a ⟨ctx.sp, ctx.env, none, none⟩ st).bind
        fun (first, _env', _pluck', st1) =>
          -- If an alternative always match, no need to generate code for the
          -- next alternatives
          if m = .always then .ok (first, st1)
          else
            if rest.isEmpty then .ok (first, st1)  -- buildSequence(first, [])
            else
              (buildAlternativesCode g rest ctx st1).bind fun (restCode, st2) =>
                .ok (first ++ buildCondition .sometimes [op.IF_ERROR]
                      ([op.POP] ++ restCode) [], st2)
termination_by (sizeOf alternatives, 0)

/-- The `buildElementsCode` recursion of the `sequence` handler: `total` is
`node.elements.length`; env and pluck are shared through all elements, so
each element's mutations are visible to the later ones and to the final
action/pluck emission. -/
def buildElementsCode (g : Grammar) (total : Nat) (elements : List Expr)
    (ctx : Ctx) (st : GenSt) :
    Except String (Bytecode × Env × Option (List Int) × GenSt) :=
  match elements with
  | e :: rest =>
      let processedCount := total - (e :: rest).length + 1
      (generate g e ⟨ctx.sp, ctx.env, ctx.pluck, none⟩ st).bind
        fun (code, env1, pluck1, st1) =>
          (buildElementsCode g total rest ⟨ctx.sp + 1, env1, pluck1, ctx.action⟩ st1).bind
            fun (restCode, env2, pluck2, st2) =>
              .ok (code ++ buildCondition (matchOf e.matchField) [op.IF_NOT_ERROR]
                    restCode
                    ((if processedCount > 1 then [op.POP_N, (processedCount : Int)]
                      else [op.POP])
                      ++ [op.POP_CURR_POS] ++ [op.PUSH_FAILED]),
                  env2, pluck2, st2)
  | [] =>
      match ctx.pluck with
      | some (p :: ps) =>
          -- `context.pluck && context.pluck.length > 0` (an empty JS array
          -- is truthy, so only the length check matters when pluck exists)
          .ok ([op.PLUCK, (total : Int) + 1, (((p :: ps) : List Int).length : Int)]
                ++ (p :: ps).map (fun eSP => ctx.sp - eSP),
              ctx.env, ctx.pluck, st)
      | some [] =>
          let (bc, st') := buildElementsTail total ctx st
          .ok (bc, ctx.env, ctx.pluck, st')
      | none =>
          let (bc, st') := buildElementsTail total ctx st
          .ok (bc, ctx.env, ctx.pluck, st')
termination_by (sizeOf elements, 0)

/-- `buildSimplePredicate(expression, negative, context)`. -/
def buildSimplePredicate (g : Grammar) (expression : Expr) (negative : Bool)
    (ctx : Ctx) (st : GenSt) :
    Except String (Bytecode × Env × Option (List Int) × GenSt) :=
  let m := matchOf expression.matchField
  (generate g expression ⟨ctx.sp + 1, ctx.env, none, none⟩ st).bind
    fun (code, _env', _pluck', st') =>
      .ok ([op.PUSH_CURR_POS] ++ [op.SILENT_FAILS_ON] ++ code ++ [op.SILENT_FAILS_OFF]
            ++ buildCondition (if negative then m.neg else m)
                [if negative then op.IF_ERROR else op.IF_NOT_ERROR]
                ([op.POP] ++ [if negative then op.POP else op.POP_CURR_POS]
                  ++ [op.PUSH_UNDEFINED])
                ([op.POP] ++ [if negative then op.POP_CURR_POS else op.POP]
                  ++ [op.PUSH_FAILED]),
          ctx.env, ctx.pluck, st')
termination_by (sizeOf expression, 1)

end

/-- The `rule` handler: generate the body in a fresh context and store the
bytecode on the rule. -/
def genRule (g : Grammar) (r : Rule) (st : GenSt) : Except String (Rule × GenSt) :=
  (generate g r.expression ⟨-1, [], some [], none⟩ st).bind
    fun (code, _env', _pluck', st') => .ok ({ r with bytecode? := some code }, st')

/-- The grammar handler's `node.rules.forEach(rule => generate(rule, null))`,
threading the pools left to right. -/
def genRules (g : Grammar) : List Rule → GenSt → Except String (List Rule × GenSt)
  | [], st => .ok ([], st)
  | r :: rest, st =>
      (genRule g r st).bind fun (r', st1) =>
        (genRules g rest st1).bind fun (rest', st2) => .ok (r' :: rest', st2)

/-- The `generateBytecode` pass: bytecode for every rule, then the four pools
stored on the grammar node. -/
def generateBytecode (g : Grammar) : Except String Grammar :=
  (genRules g g.rules {}).bind fun (rules', st) =>
    Except.ok
      { g with
        rules := rules'
        literals? := some st.literals
        classes? := some st.classes
        expectations? := some st.expectations
        functions? := some st.functions }

/-- Opcodes followed by no operand. -/
def zeroArgOps : List Int :=
  [op.PUSH_EMPTY_STRING, op.PUSH_UNDEFINED, op.PUSH_NULL, op.PUSH_FAILED,
   op.PUSH_EMPTY_ARRAY, op.PUSH_CURR_POS, op.POP, op.POP_CURR_POS, op.NIP,
   op.APPEND, op.TEXT, op.UPDATE_SAVED_POS, op.SILENT_FAILS_ON, op.SILENT_FAILS_OFF]

/-- Opcodes followed by exactly one non-branching operand. -/
def oneArgOps : List Int :=
  [op.POP_N, op.WRAP, op.ACCEPT_N, op.ACCEPT_STRING, op.FAIL, op.LOAD_SAVED_POS]

/-- Branching opcodes with no extra operand before the two branch lengths. -/
def condOps0 : List Int := [op.IF, op.IF_ERROR, op.IF_NOT_ERROR, op.MATCH_ANY]

/-- Branching opcodes with one pool operand before the two branch lengths. -/
def condOps1 : List Int := [op.MATCH_STRING, op.MATCH_STRING_IC, op.MATCH_CHAR_CLASS]

/-- Well-formed bytecode for a grammar with `nrules` rules: the stream parses
into instructions; every branching instruction carries the lengths of its
two inlined bodies, every loop carries the length of its inlined body, every
`RULE` operand is a valid rule index, and `CALL` / `PLUCK` carry their own
argument counts. -/
inductive BytecodeWF (nrules : Nat) : Bytecode → Prop where
  | nil : BytecodeWF nrules []
  | op0 {c : Int} {rest : Bytecode} : c ∈ zeroArgOps →
      BytecodeWF nrules rest → BytecodeWF nrules (c :: rest)
  | op1 {c x : Int} {rest : Bytecode} : c ∈ oneArgOps →
      BytecodeWF nrules rest → BytecodeWF nrules (c :: x :: rest)
  | ruleOp {r : Nat} {rest : Bytecode} : r < nrules →
      BytecodeWF nrules rest → BytecodeWF nrules (op.RULE :: (r : Int) :: rest)
  | branch0 {c : Int} {t e rest : Bytecode} : c ∈ condOps0 →
      BytecodeWF nrules t → BytecodeWF nrules e → BytecodeWF nrules rest →
      BytecodeWF nrules (c :: (t.length : Int) :: (e.length : Int) :: (t ++ (e ++ rest)))
  | branch1 {c x : Int} {t e rest : Bytecode} : c ∈ condOps1 →
      BytecodeWF nrules t → BytecodeWF nrules e → BytecodeWF nrules rest →
      BytecodeWF nrules (c :: x :: (t.length : Int) :: (e.length : Int) :: (t ++ (e ++ rest)))
  | whileLoop {b rest : Bytecode} : BytecodeWF nrules b → BytecodeWF nrules rest →
      BytecodeWF nrules (op.WHILE_NOT_ERROR :: (b.length : Int) :: (b ++ rest))
  | callOp {f d : Int} {ps : List Int} {rest : Bytecode} : BytecodeWF nrules rest →
      BytecodeWF nrules (op.CALL :: f :: d :: (ps.length : Int) :: (ps ++ rest))
  | pluckOp {n : Int} {ps : List Int} {rest : Bytecode} : BytecodeWF nrules rest →
      BytecodeWF nrules (op.PLUCK :: n :: (ps.length : Int) :: (ps ++ rest))

/-- All `rule_ref`s of an expression resolve in the grammar. -/
def RefsOk (g : Grammar) (e : Expr) : Prop :=
  ∀ nm ∈ exprRefs e, (findRule g nm).isSome

/-- Location of the reference `X` in the grammar `start = X`. -/
def locC1X : LocationRange := ⟨"", 8, 9⟩

/-- The grammar `start = X` (one rule whose body references the undefined
rule `X`). -/
def gC1 : Grammar :=
  { rules := [{ name := "start", nameLocation := ⟨"", 0, 5⟩,
                expression := .rule_ref "X" none locC1X }] }


/-- The one-rule grammar `start = "a"`, fresh from the parser (no `match`
annotations anywhere). -/
def gC8 : Grammar :=
  { rules := [{ name := "start", expression := .literal "a" false none {} }] }


/-- Counterexample grammar for C4: the self-proxy `A = A` plus
`start = A*`, with `start` the only allowed start rule. -/
def gC4 : Grammar :=
  { rules := [
      { name := "A", expression := .rule_ref "A" none {} },
      { name := "start", expression := .zero_or_more (.rule_ref "A" none {}) none {} }] }

/-- What `removeProxyRules` produces on `gC4`: rule `A` is spliced out while
`start`'s body still references it. -/
def gC4expected : Grammar :=
  { rules := [
      { name := "start", expression := .zero_or_more (.rule_ref "A" none {}) none {} }] }

/-- The session `removeProxyRules` produces on `gC4`: one info per rewritten
reference (the self-rewrite `A` → `A` still fires, once for the reference in
`A` itself and once for the one in `start`). -/
def sC4 : Session :=
  { stage := some .transform,
    problems := [
      ⟨.info, "Proxy rule \"A\" replaced by the rule \"A\"", some {},
        some [⟨"This rule will be used", {}⟩]⟩,
      ⟨.info, "Proxy rule \"A\" replaced by the rule \"A\"", some {},
        some [⟨"This rule will be used", {}⟩]⟩] }

/-- Witness grammar for the amended C4: `A = B`, `B = "x"`,
`allowedStartRules = ["B"]` (an acyclic proxy chain). -/
def gC4w : Grammar :=
  { rules := [
      { name := "A", expression := .rule_ref "B" none {} },
      { name := "B", expression := .literal "x" false none {} }] }

/-- Result of `removeProxyRules` on `gC4w`: the proxy `A` is removed. -/
def gC4w' : Grammar :=
  { rules := [{ name := "B", expression := .literal "x" false none {} }] }

/-- The empty-rules grammar (the expression-level generator does not read the
rule list except through `rule_ref`, which the witnesses avoid). -/
def gC10 : Grammar := { rules := [] }

/-- The labeled node `x:"a"` (no pick). -/
def labC10 : Expr := .labeled false (some "x") {} (.literal "a" false none {}) none {}

/-- The bytecode the generator emits for the unannotated literal `"a"`. -/
def codeC10 : Bytecode := [op.MATCH_STRING, 0, 2, 2, op.ACCEPT_STRING, 0, op.FAIL, 0]

/-- The pools after generating the literal `"a"` from empty pools. -/
def stC10' : GenSt := { literals := ["a"], expectations := [.literalE "a" false] }

/-- What `generateBytecode` produces on `gC8` (the grammar `start = "a"`). -/
def gC5' : Grammar :=
  { rules := [{ name := "start", expression := .literal "a" false none {},
                bytecode? := some codeC10 }],
    literals? := some ["a"], classes? := some [],
    expectations? := some [.literalE "a" false], functions? := some [] }

end Peggy

-- ===================================================================
-- Theorems
-- ===================================================================

namespace Peggy

/-- C6: `alwaysConsumesOnSuccess` is the compositional predicate claimed:
true for a non-empty literal, any class and `any`; false for the two simple
predicates, `optional`, `zero_or_more` and the two semantic predicates;
a choice consumes iff every alternative does; a sequence consumes iff some
element does; a `rule_ref` returns the referenced rule's result when the rule
exists and false when it is unresolved; and every single-child wrapper
returns its child's result.  (The fuel parameter bounds the source's
unbounded recursion through rule references; it is spent only when a
`rule_ref` is unfolded.) -/
theorem alwaysConsumesOnSuccess_spec :
    (∀ g fuel v ic m l, consumes g fuel (.literal v ic m l) = some (v != ""))
    ∧ (∀ g fuel p i ic m l, consumes g fuel (.charClass p i ic m l) = some true)
    ∧ (∀ g fuel m l, consumes g fuel (.anyChar m l) = some true)
    ∧ (∀ g fuel e m l, consumes g fuel (.simple_and e m l) = some false)
    ∧ (∀ g fuel e m l, consumes g fuel (.simple_not e m l) = some false)
    ∧ (∀ g fuel e m l, consumes g fuel (.optional e m l) = some false)
    ∧ (∀ g fuel e m l, consumes g fuel (.zero_or_more e m l) = some false)
    ∧ (∀ g fuel c cl m l, consumes g fuel (.semantic_and c cl m l) = some false)
    ∧ (∀ g fuel c cl m l, consumes g fuel (.semantic_not c cl m l) = some false)
    ∧ (∀ g fuel alts m l, consumes g fuel (.choice alts m l) = consumesEvery g fuel alts)
    ∧ (∀ g fuel els m l, consumes g fuel (.sequence els m l) = consumesSome g fuel els)
    ∧ (∀ g fuel e rest, consumesEvery g fuel (e :: rest) =
        match consumes g fuel e with
        | none => none
        | some false => some false
        | some true => consumesEvery g fuel rest)
    ∧ (∀ g fuel e rest, consumesSome g fuel (e :: rest) =
        match consumes g fuel e with
        | none => none
        | some true => some true
        | some false => consumesSome g fuel rest)
    ∧ (∀ g fuel n m l, consumes g (fuel + 1) (.rule_ref n m l) =
        match findRule g n with
        | some r => consumes g fuel r.expression
        | none => some false)
    ∧ (∀ g fuel nm e m l, consumes g fuel (.named nm e m l) = consumes g fuel e)
    ∧ (∀ g fuel c cl e m l, consumes g fuel (.action c cl e m l) = consumes g fuel e)
    ∧ (∀ g fuel p lb ll e m l, consumes g fuel (.labeled p lb ll e m l) = consumes g fuel e)
    ∧ (∀ g fuel e m l, consumes g fuel (.text e m l) = consumes g fuel e)
    ∧ (∀ g fuel e m l, consumes g fuel (.one_or_more e m l) = consumes g fuel e)
    ∧ (∀ g fuel e m l, consumes g fuel (.group e m l) = consumes g fuel e) := by
  refine ⟨?_, ?_, ?_, ?_, ?_, ?_, ?_, ?_, ?_, ?_, ?_, ?_, ?_, ?_, ?_, ?_, ?_, ?_, ?_, ?_⟩ <;>
    intros <;> simp [consumes, consumesEvery, consumesSome]

/-! ### Evaluation helpers -/

@[simp] lemma except_bind_ok {ε α β : Type} (a : α) (f : α → Except ε β) :
    (Except.ok a >>= f : Except ε β) = f a := rfl

@[simp] lemma except_bind_err {ε α β : Type} (e : ε) (f : α → Except ε β) :
    (Except.error e >>= f : Except ε β) = Except.error e := rfl

@[simp] lemma except_map_ok {ε α β : Type} (a : α) (f : α → β) :
    (Except.map f (Except.ok a) : Except ε β) = Except.ok (f a) := rfl

@[simp] lemma except_map_err {ε α β : Type} (e : ε) (f : α → β) :
    (Except.map f (Except.error e) : Except ε β) = Except.error e := rfl

lemma except_bind_eq_ok {ε α β : Type} {x : Except ε α} {f : α → Except ε β} {b : β}
    (h : (x >>= f) = .ok b) : ∃ a, x = .ok a ∧ f a = .ok b := by
  cases x with
  | error e => simp at h
  | ok a => exact ⟨a, rfl, by simpa using h⟩

/-! ### Helper lemmas about match-result inference -/

lemma preservesResolved_refl (a : MatchResult) : PreservesResolved a a := ⟨id, id⟩

lemma preservesResolved_sometimes (b : MatchResult) :
    PreservesResolved .sometimes b := by
  constructor <;> intro h <;> exact (MatchResult.noConfusion h)

lemma preservesResolved_neg :
    ∀ a b : MatchResult, PreservesResolved a b → PreservesResolved a.neg b.neg := by
  unfold PreservesResolved MatchResult.neg
  decide

lemma inferenceCount_le (ρ : RuleEnv) :
    ∀ es : List Expr,
      (inferenceCount ρ es).1 + (inferenceCount ρ es).2 ≤ es.length
  | [] => by simp [inferenceCount]
  | e :: rest => by
    have ih := inferenceCount_le ρ rest
    simp only [inferenceCount, List.length_cons]
    rcases h : inferenceExprEnv ρ e <;> simp [h] <;> omega

lemma inferenceCount_fst_le (ρ : RuleEnv) (es : List Expr) :
    (inferenceCount ρ es).1 ≤ es.length :=
  le_trans (Nat.le_add_right _ _) (inferenceCount_le ρ es)

lemma inferenceCount_snd_le (ρ : RuleEnv) (es : List Expr) :
    (inferenceCount ρ es).2 ≤ es.length :=
  le_trans (Nat.le_add_left _ _) (inferenceCount_le ρ es)

lemma inferenceCount_fst_eq_iff (ρ : RuleEnv) :
    ∀ es : List Expr,
      (inferenceCount ρ es).1 = es.length ↔ ∀ e ∈ es, inferenceExprEnv ρ e = .always
  | [] => by simp [inferenceCount]
  | e :: rest => by
    have ih := inferenceCount_fst_eq_iff ρ rest
    have hle := inferenceCount_fst_le ρ rest
    simp only [inferenceCount, List.length_cons, List.mem_cons]
    constructor
    · intro h
      by_cases hr : inferenceExprEnv ρ e = .always
      · simp [hr] at h
        intro x hx
        rcases hx with rfl | hx
        · exact hr
        · exact (ih.mp (by omega)) x hx
      · simp only [if_neg hr] at h
        omega
    · intro h
      have h1 : inferenceExprEnv ρ e = .always := h e (Or.inl rfl)
      have h2 : (inferenceCount ρ rest).1 = rest.length :=
        ih.mpr (fun x hx => h x (Or.inr hx))
      simp [h1, h2]

lemma inferenceCount_snd_eq_iff (ρ : RuleEnv) :
    ∀ es : List Expr,
      (inferenceCount ρ es).2 = es.length ↔ ∀ e ∈ es, inferenceExprEnv ρ e = .never
  | [] => by simp [inferenceCount]
  | e :: rest => by
    have ih := inferenceCount_snd_eq_iff ρ rest
    have hle := inferenceCount_snd_le ρ rest
    simp only [inferenceCount, List.length_cons, List.mem_cons]
    constructor
    · intro h
      by_cases hr : inferenceExprEnv ρ e = .never
      · simp [hr] at h
        intro x hx
        rcases hx with rfl | hx
        · exact hr
        · exact (ih.mp (by omega)) x hx
      · simp only [if_neg hr] at h
        omega
    · intro h
      have h1 : inferenceExprEnv ρ e = .never := h e (Or.inl rfl)
      have h2 : (inferenceCount ρ rest).2 = rest.length :=
        ih.mpr (fun x hx => h x (Or.inr hx))
      simp [h1, h2]

lemma inferenceCount_snd_pos_iff (ρ : RuleEnv) :
    ∀ es : List Expr,
      0 < (inferenceCount ρ es).2 ↔ ∃ e ∈ es, inferenceExprEnv ρ e = .never
  | [] => by simp [inferenceCount]
  | e :: rest => by
    have ih := inferenceCount_snd_pos_iff ρ rest
    simp only [inferenceCount, List.mem_cons]
    constructor
    · intro h
      by_cases hr : inferenceExprEnv ρ e = .never
      · exact ⟨e, Or.inl rfl, hr⟩
      · simp only [if_neg hr] at h
        obtain ⟨x, hx, hxn⟩ := ih.mp (by omega)
        exact ⟨x, Or.inr hx, hxn⟩
    · rintro ⟨x, hx | hx, hxn⟩
      · subst hx; simp [hxn]
      · have := ih.mpr ⟨x, hx, hxn⟩
        rcases hr : inferenceExprEnv ρ e <;> simp [hr] <;> omega

mutual

/-- `inferenceExprEnv` preserves resolved results under pointwise
`PreservesResolved` change of the rule environment. -/
theorem inferencePresE (ρ ρ' : RuleEnv) (h : ∀ n, PreservesResolved (ρ n) (ρ' n)) :
    ∀ e : Expr, PreservesResolved (inferenceExprEnv ρ e) (inferenceExprEnv ρ' e)
  | .named _ e _ _ => by
    simpa only [inferenceExprEnv] using inferencePresE ρ ρ' h e
  | .choice alts _ _ => by
    have hc := inferencePresC ρ ρ' h alts
    have hb := inferenceCount_le ρ alts
    have hb' := inferenceCount_le ρ' alts
    simp only [inferenceExprEnv]
    by_cases h1 : (inferenceCount ρ alts).1 = alts.length
    · simp only [if_pos h1, if_pos (hc.1 h1)]
      exact preservesResolved_refl _
    · by_cases h2 : (inferenceCount ρ alts).2 = alts.length
      · have hlen : 0 < alts.length := by
          rcases Nat.eq_zero_or_pos alts.length with h0 | h0
          · exact absurd (by omega) h1
          · exact h0
        have h2' := hc.2.1 h2
        have h1' : (inferenceCount ρ' alts).1 ≠ alts.length := by omega
        simp only [if_neg h1, if_pos h2, if_neg h1', if_pos h2']
        exact preservesResolved_refl _
      · simp only [if_neg h1, if_neg h2]
        exact preservesResolved_sometimes _
  | .action _ _ e _ _ => by
    simpa only [inferenceExprEnv] using inferencePresE ρ ρ' h e
  | .sequence els _ _ => by
    have hc := inferencePresC ρ ρ' h els
    have hb := inferenceCount_le ρ els
    have hb' := inferenceCount_le ρ' els
    simp only [inferenceExprEnv]
    by_cases h1 : (inferenceCount ρ els).1 = els.length
    · simp only [if_pos h1, if_pos (hc.1 h1)]
      exact preservesResolved_refl _
    · by_cases h2 : 0 < (inferenceCount ρ els).2
      · have h2' := hc.2.2 h2
        have h1' : (inferenceCount ρ' els).1 ≠ els.length := by omega
        simp only [if_neg h1, if_pos h2, if_neg h1', if_pos h2']
        exact preservesResolved_refl _
      · simp only [if_neg h1, if_neg h2]
        exact preservesResolved_sometimes _
  | .labeled _ _ _ e _ _ => by
    simpa only [inferenceExprEnv] using inferencePresE ρ ρ' h e
  | .text e _ _ => by
    simpa only [inferenceExprEnv] using inferencePresE ρ ρ' h e
  | .simple_and e _ _ => by
    simpa only [inferenceExprEnv] using inferencePresE ρ ρ' h e
  | .simple_not e _ _ => by
    simpa only [inferenceExprEnv] using
      preservesResolved_neg _ _ (inferencePresE ρ ρ' h e)
  | .optional _ _ _ => by
    simp only [inferenceExprEnv]; exact preservesResolved_refl _
  | .zero_or_more _ _ _ => by
    simp only [inferenceExprEnv]; exact preservesResolved_refl _
  | .one_or_more e _ _ => by
    simpa only [inferenceExprEnv] using inferencePresE ρ ρ' h e
  | .group e _ _ => by
    simpa only [inferenceExprEnv] using inferencePresE ρ ρ' h e
  | .semantic_and _ _ _ _ => by
    simp only [inferenceExprEnv]; exact preservesResolved_refl _
  | .semantic_not _ _ _ _ => by
    simp only [inferenceExprEnv]; exact preservesResolved_refl _
  | .rule_ref name _ _ => by
    simpa only [inferenceExprEnv] using h name
  | .literal _ _ _ _ => by
    simp only [inferenceExprEnv]; exact preservesResolved_refl _
  | .charClass _ _ _ _ _ => by
    simp only [inferenceExprEnv]; exact preservesResolved_refl _
  | .anyChar _ _ => by
    simp only [inferenceExprEnv]; exact preservesResolved_refl _

/-- Companion of `inferencePresE` for the counting loop. -/
theorem inferencePresC (ρ ρ' : RuleEnv) (h : ∀ n, PreservesResolved (ρ n) (ρ' n)) :
    ∀ es : List Expr,
      ((inferenceCount ρ es).1 = es.length → (inferenceCount ρ' es).1 = es.length)
      ∧ ((inferenceCount ρ es).2 = es.length → (inferenceCount ρ' es).2 = es.length)
      ∧ (0 < (inferenceCount ρ es).2 → 0 < (inferenceCount ρ' es).2)
  | [] => by simp [inferenceCount]
  | e :: rest => by
    have ihe := inferencePresE ρ ρ' h e
    have ihc := inferencePresC ρ ρ' h rest
    have hbr1 := inferenceCount_fst_le ρ rest
    have hbr2 := inferenceCount_snd_le ρ rest
    simp only [inferenceCount, List.length_cons]
    refine ⟨?_, ?_, ?_⟩
    · intro hs
      by_cases he : inferenceExprEnv ρ e = .always
      · have he' := ihe.1 he
        simp [he] at hs
        have := ihc.1 (by omega)
        simp [he', this]
      · simp only [if_neg he] at hs
        omega
    · intro hs
      by_cases he : inferenceExprEnv ρ e = .never
      · have he' := ihe.2 he
        simp [he] at hs
        have := ihc.2.1 (by omega)
        simp [he', this]
      · simp only [if_neg he] at hs
        omega
    · intro hs
      by_cases he : inferenceExprEnv ρ e = .never
      · have he' := ihe.2 he
        simp [he']
      · simp only [if_neg he] at hs
        have := ihc.2.2 (by omega)
        omega

end

/-- One unfolding of the fixed-point loop. -/
lemma ruleMatchLoop_succ (ρ : RuleEnv) (self : String) (body : Expr)
    (r : Nat) (cur : MatchResult) :
    ruleMatchLoop ρ self body (r + 1) cur =
      if inferenceExprEnv (setRuleMatch ρ self cur) body = cur
      then some (inferenceExprEnv (setRuleMatch ρ self cur) body)
      else ruleMatchLoop ρ self body r (inferenceExprEnv (setRuleMatch ρ self cur) body) :=
  rfl

/-- If the first re-inference of the body (with the rule's `match` at
SOMETIMES) yields a resolved result, that result is already a fixed point. -/
lemma inference_step_fixes (ρ : RuleEnv) (self : String) (body : Expr)
    (m1 : MatchResult)
    (hm1 : inferenceExprEnv (setRuleMatch ρ self .sometimes) body = m1)
    (h1 : m1 ≠ .sometimes) :
    inferenceExprEnv (setRuleMatch ρ self m1) body = m1 := by
  have hpres : ∀ n, PreservesResolved ((setRuleMatch ρ self .sometimes) n)
      ((setRuleMatch ρ self m1) n) := by
    intro n
    unfold setRuleMatch
    split
    · exact preservesResolved_sometimes _
    · exact preservesResolved_refl _
  have h2 := inferencePresE _ _ hpres body
  rw [hm1] at h2
  cases m1 with
  | sometimes => exact absurd rfl h1
  | always => exact h2.1 rfl
  | never => exact h2.2 rfl

/-- C2: for every rule body and every rule environment, the per-rule
fixed-point loop of match-result inference (initialized at SOMETIMES)
stabilizes within the allowed 6 iterations, so the internal-error branch
(`Infinity cycle detected ...`, modelled by `none`) is unreachable.  In fact
the loop converges after at most two body executions: being SOMETIMES-started,
a first resolved result is already a fixed point (`inference_step_fixes`). -/
theorem c2_rule_fixed_point_within_6 :
    ∀ (ρ : RuleEnv) (self : String) (body : Expr),
      (inferRuleMatch ρ self body).isSome = true := by
  intro ρ self body
  unfold inferRuleMatch
  rw [show (6 : Nat) = 5 + 1 from rfl, ruleMatchLoop_succ]
  by_cases h1 : inferenceExprEnv (setRuleMatch ρ self .sometimes) body = .sometimes
  · rw [if_pos h1]; rfl
  · rw [if_neg h1]
    rw [show (5 : Nat) = 4 + 1 from rfl, ruleMatchLoop_succ]
    rw [if_pos (inference_step_fixes ρ self body _ rfl h1)]
    rfl

/-- C3: the match-result inference assigns tags according to the specified
table.  A choice is ALWAYS when all alternatives are ALWAYS, NEVER when all
alternatives are NEVER, and SOMETIMES otherwise; a sequence is ALWAYS when
all elements are ALWAYS, NEVER when some element is NEVER, and SOMETIMES
otherwise; a literal is ALWAYS iff its value is empty, else SOMETIMES; a
class is NEVER iff its parts list is empty, else SOMETIMES; `optional` and
`zero_or_more` are ALWAYS; `simple_not` negates its child's result. -/
theorem c3_inference_table :
    (∀ (ρ : RuleEnv) alts m l, inferenceExprEnv ρ (.choice alts m l) =
      if ∀ e ∈ alts, inferenceExprEnv ρ e = .always then .always
      else if ∀ e ∈ alts, inferenceExprEnv ρ e = .never then .never
      else .sometimes)
    ∧ (∀ (ρ : RuleEnv) els m l, inferenceExprEnv ρ (.sequence els m l) =
      if ∀ e ∈ els, inferenceExprEnv ρ e = .always then .always
      else if ∃ e ∈ els, inferenceExprEnv ρ e = .never then .never
      else .sometimes)
    ∧ (∀ (ρ : RuleEnv) v ic m l, inferenceExprEnv ρ (.literal v ic m l) =
      if v.length = 0 then .always else .sometimes)
    ∧ (∀ (ρ : RuleEnv) p i ic m l, inferenceExprEnv ρ (.charClass p i ic m l) =
      if p.length = 0 then .never else .sometimes)
    ∧ (∀ (ρ : RuleEnv) e m l, inferenceExprEnv ρ (.optional e m l) = .always)
    ∧ (∀ (ρ : RuleEnv) e m l, inferenceExprEnv ρ (.zero_or_more e m l) = .always)
    ∧ (∀ (ρ : RuleEnv) e m l, inferenceExprEnv ρ (.simple_not e m l) =
      (inferenceExprEnv ρ e).neg) := by
  refine ⟨?_, ?_, ?_, ?_, ?_, ?_, ?_⟩
  · intro ρ alts m l
    simp only [inferenceExprEnv]
    rw [if_congr (inferenceCount_fst_eq_iff ρ alts) rfl rfl,
        if_congr (inferenceCount_snd_eq_iff ρ alts) rfl rfl]
  · intro ρ els m l
    simp only [inferenceExprEnv]
    rw [if_congr (inferenceCount_fst_eq_iff ρ els) rfl rfl,
        if_congr (inferenceCount_snd_pos_iff ρ els) rfl rfl]
  all_goals intros; rfl

/-- C7: with a stage set, `Session.error` records the problem, increments the
error count and — on the first error only — retains an exception whose
`stage` is the session's current stage; `Session.warning` and `Session.info`
record without touching the error count or the retained error; and
`checkErrors` throws the retained first error (carrying, through the aliased
`problems` property, the session's problems as of the throw) if and only if
the error count is non-zero. -/
theorem c7_session_spec :
    ∀ (s : Session) (st : Stage) (msg : String) (loc? : Option LocationRange)
      (notes? : Option (List DiagnosticNote)),
      s.stage = some st →
      (∃ s', Session.error s msg loc? notes? = .ok s'
        ∧ s'.problems = s.problems ++ [⟨.error, msg, loc?, notes?⟩]
        ∧ s'.errors = s.errors + 1
        ∧ s'.firstError? =
            (match s.firstError? with
             | none => some ⟨msg, loc?, notes?, some st⟩
             | some fe => some fe)
        ∧ s'.stage = s.stage)
      ∧ (∃ s', Session.warning s msg loc? notes? = .ok s'
        ∧ s'.problems = s.problems ++ [⟨.warning, msg, loc?, notes?⟩]
        ∧ s'.errors = s.errors
        ∧ s'.firstError? = s.firstError?)
      ∧ (∃ s', Session.info s msg loc? notes? = .ok s'
        ∧ s'.problems = s.problems ++ [⟨.info, msg, loc?, notes?⟩]
        ∧ s'.errors = s.errors
        ∧ s'.firstError? = s.firstError?)
      ∧ (s.errors ≠ 0 → s.checkErrors = .error ⟨s.firstError?, s.problems⟩)
      ∧ (s.errors = 0 → s.checkErrors = .ok ()) := by
  intro s st msg loc? notes? hst
  refine ⟨?_, ?_, ?_, ?_, ?_⟩
  · unfold Session.error
    rw [hst]
    exact ⟨_, rfl, rfl, rfl, rfl, rfl⟩
  · unfold Session.warning
    rw [hst]
    exact ⟨_, rfl, rfl, rfl, rfl⟩
  · unfold Session.info
    rw [hst]
    exact ⟨_, rfl, rfl, rfl, rfl⟩
  · intro h
    simp [Session.checkErrors, h]
  · intro h
    simp [Session.checkErrors, h]

/-- Witness for C7 at a concrete session. -/
theorem c7_session_spec_witness :
    (Session.mk [] (some .check) none 0).stage = some .check
    ∧ ((∃ s', Session.error (Session.mk [] (some .check) none 0) "boom" none none = .ok s'
        ∧ s'.problems = [] ++ [⟨.error, "boom", none, none⟩]
        ∧ s'.errors = 0 + 1
        ∧ s'.firstError? =
            (match (Session.mk [] (some .check) none 0).firstError? with
             | none => some ⟨"boom", none, none, some .check⟩
             | some fe => some fe)
        ∧ s'.stage = (Session.mk [] (some .check) none 0).stage)
      ∧ (∃ s', Session.warning (Session.mk [] (some .check) none 0) "boom" none none = .ok s'
        ∧ s'.problems = [] ++ [⟨.warning, "boom", none, none⟩]
        ∧ s'.errors = 0
        ∧ s'.firstError? = none)
      ∧ (∃ s', Session.info (Session.mk [] (some .check) none 0) "boom" none none = .ok s'
        ∧ s'.problems = [] ++ [⟨.info, "boom", none, none⟩]
        ∧ s'.errors = 0
        ∧ s'.firstError? = none)
      ∧ ((Session.mk [] (some .check) none 0).errors ≠ 0 →
          (Session.mk [] (some .check) none 0).checkErrors = .error ⟨none, []⟩)
      ∧ ((Session.mk [] (some .check) none 0).errors = 0 →
          (Session.mk [] (some .check) none 0).checkErrors = .ok ())) :=
  ⟨rfl, c7_session_spec (Session.mk [] (some .check) none 0) .check "boom" none none rfl⟩

/-! ### C1: the undefined-rule scenario -/

/-- C1 (code bug): on the grammar `start = X`, `reportUndefinedRules` does
record exactly the claimed single error `Rule "X" is not defined` at the
location of `X` with the check stage current — but the check stage as a whole
does *not* run all six passes to completion: `reportInfiniteRecursion` throws
the plain Error `Could not find rule X while looking for infinite recursive
parsers` at the unresolved reference, so compilation crashes before
`checkErrors` can raise the recorded error.  This contradicts the pass's own
comment ("some rules could be missing - this check executed in parallel"),
whose `if (rule)` guard is unreachable after the throw. -/
theorem c1_undefined_rule_check_stage :
    runCheckStage gC1 10 {} =
      .error (.jsError "Could not find rule X while looking for infinite recursive parsers")
    ∧ reportUndefinedRules gC1 { stage := some .check } =
      .ok { stage := some .check,
            problems := [⟨.error, "Rule \"X\" is not defined", some locC1X, none⟩],
            firstError? := some ⟨"Rule \"X\" is not defined", some locC1X, none, some .check⟩,
            errors := 1 } := by
  constructor
  · simp [runCheckStage, liftJs, Session.info, Session.error, reportUndefinedRules,
      undefinedRulesE, reportDuplicateRules, dupRulesLoop, reportDuplicateLabels,
      dupLabelsE, reportInfiniteRecursion, infRecE, gC1, locC1X, findRule,
      List.foldlM, List.find?]
    rfl
  · simp [reportUndefinedRules, undefinedRulesE, Session.error, gC1, locC1X, findRule,
      List.foldlM, List.find?]
    rfl

/-! ### C8: totality of match annotations after the inference pass -/

/-- C8 (code bug): the `inferenceMatchResult` pass returns every grammar
unchanged — its visitor is dispatched on the grammar root, where the
explicitly supplied `grammar: ignoreNode` handler returns NEVER without
visiting the rules — so after the pass the grammar `start = "a"` still has
no `match` value on any node, contradicting the claimed totality (and the
code's own documentation of the `match` property). -/
theorem c8_inference_pass_annotates_nothing :
    (∀ g : Grammar, inferenceMatchResultPass g = (g, .never))
    ∧ (inferenceMatchResultPass gC8).1 = gC8
    ∧ grammarFullyAnnotated (inferenceMatchResultPass gC8).1 = false :=
  ⟨fun _ => rfl, rfl, rfl⟩

/-! ### C9: empty grammar without `allowedStartRules` -/

/-- C9: invoking `compile` on a grammar with no rules and options that do
not specify `allowedStartRules` throws `Must have at least one start rule`
from `parseOptions` — whatever passes are installed, none executes. -/
theorem c9_compile_empty_grammar_without_start_rules :
    ∀ (g : Grammar) (o : RawOptions)
      (passes : List (Grammar → Session → Except String (Grammar × Session))),
      g.rules = [] → o.allowedStartRules = none →
      compileDriver g o passes = .error "Must have at least one start rule" := by
  intro g o passes hg ho
  simp [compileDriver, parseOptions, hg, ho]

/-- Witness for C9: the empty grammar with default options and a non-trivial
pass list. -/
theorem c9_compile_empty_grammar_witness :
    (Grammar.mk none none [] none none none none).rules = []
    ∧ (RawOptions.mk none none none).allowedStartRules = none
    ∧ compileDriver (Grammar.mk none none [] none none none none)
        (RawOptions.mk none none none)
        [fun g s => Except.ok (g, s)] = .error "Must have at least one start rule" :=
  ⟨rfl, rfl,
    c9_compile_empty_grammar_without_start_rules _ _ _ rfl rfl⟩

/-! ### C4: lemmas about reference renaming -/

mutual

theorem exprRefs_rename (frm tgt : String) :
    ∀ e : Expr, exprRefs (renameRefsE frm tgt e) = (exprRefs e).map (renameName frm tgt)
  | .named _ e _ _ => by
    simp [renameRefsE, exprRefs, exprRefs_rename frm tgt e]
  | .choice alts _ _ => by
    simp [renameRefsE, exprRefs, exprRefsL_rename frm tgt alts]
  | .action _ _ e _ _ => by
    simp [renameRefsE, exprRefs, exprRefs_rename frm tgt e]
  | .sequence els _ _ => by
    simp [renameRefsE, exprRefs, exprRefsL_rename frm tgt els]
  | .labeled _ _ _ e _ _ => by
    simp [renameRefsE, exprRefs, exprRefs_rename frm tgt e]
  | .text e _ _ => by
    simp [renameRefsE, exprRefs, exprRefs_rename frm tgt e]
  | .simple_and e _ _ => by
    simp [renameRefsE, exprRefs, exprRefs_rename frm tgt e]
  | .simple_not e _ _ => by
    simp [renameRefsE, exprRefs, exprRefs_rename frm tgt e]
  | .optional e _ _ => by
    simp [renameRefsE, exprRefs, exprRefs_rename frm tgt e]
  | .zero_or_more e _ _ => by
    simp [renameRefsE, exprRefs, exprRefs_rename frm tgt e]
  | .one_or_more e _ _ => by
    simp [renameRefsE, exprRefs, exprRefs_rename frm tgt e]
  | .group e _ _ => by
    simp [renameRefsE, exprRefs, exprRefs_rename frm tgt e]
  | .semantic_and _ _ _ _ => by simp [renameRefsE, exprRefs]
  | .semantic_not _ _ _ _ => by simp [renameRefsE, exprRefs]
  | .rule_ref _ _ _ => by simp [renameRefsE, exprRefs]
  | .literal _ _ _ _ => by simp [renameRefsE, exprRefs]
  | .charClass _ _ _ _ _ => by simp [renameRefsE, exprRefs]
  | .anyChar _ _ => by simp [renameRefsE, exprRefs]

theorem exprRefsL_rename (frm tgt : String) :
    ∀ es : List Expr,
      exprRefsL (renameRefsL frm tgt es) = (exprRefsL es).map (renameName frm tgt)
  | [] => by simp [renameRefsL, exprRefsL]
  | e :: rest => by
    simp [renameRefsL, exprRefsL, exprRefs_rename frm tgt e,
      exprRefsL_rename frm tgt rest]

end

mutual

theorem refLocsE_nil_iff (name : String) :
    ∀ e : Expr, refLocsE name e = [] ↔ name ∉ exprRefs e
  | .named _ e _ _ => by
    simp [refLocsE, exprRefs, refLocsE_nil_iff name e]
  | .choice alts _ _ => by
    simp [refLocsE, exprRefs, refLocsL_nil_iff name alts]
  | .action _ _ e _ _ => by
    simp [refLocsE, exprRefs, refLocsE_nil_iff name e]
  | .sequence els _ _ => by
    simp [refLocsE, exprRefs, refLocsL_nil_iff name els]
  | .labeled _ _ _ e _ _ => by
    simp [refLocsE, exprRefs, refLocsE_nil_iff name e]
  | .text e _ _ => by
    simp [refLocsE, exprRefs, refLocsE_nil_iff name e]
  | .simple_and e _ _ => by
    simp [refLocsE, exprRefs, refLocsE_nil_iff name e]
  | .simple_not e _ _ => by
    simp [refLocsE, exprRefs, refLocsE_nil_iff name e]
  | .optional e _ _ => by
    simp [refLocsE, exprRefs, refLocsE_nil_iff name e]
  | .zero_or_more e _ _ => by
    simp [refLocsE, exprRefs, refLocsE_nil_iff name e]
  | .one_or_more e _ _ => by
    simp [refLocsE, exprRefs, refLocsE_nil_iff name e]
  | .group e _ _ => by
    simp [refLocsE, exprRefs, refLocsE_nil_iff name e]
  | .semantic_and _ _ _ _ => by simp [refLocsE, exprRefs]
  | .semantic_not _ _ _ _ => by simp [refLocsE, exprRefs]
  | .rule_ref n _ loc => by
    by_cases h : n = name <;> simp [refLocsE, exprRefs, h]
    exact fun hn => h hn.symm
  | .literal _ _ _ _ => by simp [refLocsE, exprRefs]
  | .charClass _ _ _ _ _ => by simp [refLocsE, exprRefs]
  | .anyChar _ _ => by simp [refLocsE, exprRefs]

theorem refLocsL_nil_iff (name : String) :
    ∀ es : List Expr, refLocsL name es = [] ↔ name ∉ exprRefsL es
  | [] => by simp [refLocsL, exprRefsL]
  | e :: rest => by
    simp [refLocsL, exprRefsL, refLocsE_nil_iff name e, refLocsL_nil_iff name rest,
      not_or]

end

mutual

theorem renameRefsE_id (frm tgt : String) :
    ∀ e : Expr, frm ∉ exprRefs e → renameRefsE frm tgt e = e
  | .named _ e _ _, h => by
    simp [exprRefs] at h
    simp [renameRefsE, renameRefsE_id frm tgt e h]
  | .choice alts _ _, h => by
    simp [exprRefs] at h
    simp [renameRefsE, renameRefsL_id frm tgt alts h]
  | .action _ _ e _ _, h => by
    simp [exprRefs] at h
    simp [renameRefsE, renameRefsE_id frm tgt e h]
  | .sequence els _ _, h => by
    simp [exprRefs] at h
    simp [renameRefsE, renameRefsL_id frm tgt els h]
  | .labeled _ _ _ e _ _, h => by
    simp [exprRefs] at h
    simp [renameRefsE, renameRefsE_id frm tgt e h]
  | .text e _ _, h => by
    simp [exprRefs] at h
    simp [renameRefsE, renameRefsE_id frm tgt e h]
  | .simple_and e _ _, h => by
    simp [exprRefs] at h
    simp [renameRefsE, renameRefsE_id frm tgt e h]
  | .simple_not e _ _, h => by
    simp [exprRefs] at h
    simp [renameRefsE, renameRefsE_id frm tgt e h]
  | .optional e _ _, h => by
    simp [exprRefs] at h
    simp [renameRefsE, renameRefsE_id frm tgt e h]
  | .zero_or_more e _ _, h => by
    simp [exprRefs] at h
    simp [renameRefsE, renameRefsE_id frm tgt e h]
  | .one_or_more e _ _, h => by
    simp [exprRefs] at h
    simp [renameRefsE, renameRefsE_id frm tgt e h]
  | .group e _ _, h => by
    simp [exprRefs] at h
    simp [renameRefsE, renameRefsE_id frm tgt e h]
  | .semantic_and _ _ _ _, _ => by simp [renameRefsE]
  | .semantic_not _ _ _ _, _ => by simp [renameRefsE]
  | .rule_ref n _ _, h => by
    simp [exprRefs] at h
    simp [renameRefsE, renameName, Ne.symm h]
  | .literal _ _ _ _, _ => by simp [renameRefsE]
  | .charClass _ _ _ _ _, _ => by simp [renameRefsE]
  | .anyChar _ _, _ => by simp [renameRefsE]

theorem renameRefsL_id (frm tgt : String) :
    ∀ es : List Expr, frm ∉ exprRefsL es → renameRefsL frm tgt es = es
  | [], _ => by simp [renameRefsL]
  | e :: rest, h => by
    simp [exprRefsL, not_or] at h
    simp [renameRefsL, renameRefsE_id frm tgt e h.1, renameRefsL_id frm tgt rest h.2]

end

theorem mapRule_name (frm tgt : String) (r : Rule) : (mapRule frm tgt r).name = r.name := rfl

theorem mapRule_isProxy (frm tgt : String) (r : Rule) :
    isProxy (mapRule frm tgt r) = isProxy r := by
  cases r with
  | mk name nameLocation expression m? bytecode? loc =>
    cases expression <;> rfl

theorem mapRule_proxyTarget (frm tgt : String) (r : Rule) :
    proxyTarget? (mapRule frm tgt r) = (proxyTarget? r).map (renameName frm tgt) := by
  cases r with
  | mk name nameLocation expression m? bytecode? loc =>
    cases expression <;> rfl

theorem mapRule_refs (frm tgt : String) (r : Rule) :
    exprRefs (mapRule frm tgt r).expression
      = (exprRefs r.expression).map (renameName frm tgt) :=
  exprRefs_rename frm tgt r.expression

/-- `replaceRuleRefs` success: the resulting rules are the renamed rules.
(When no reference matched, the renaming is the identity.) -/
theorem replaceRuleRefs_ok (g : Grammar) (frm tgt : String) (s : Session)
    (g' : Grammar) (s' : Session)
    (h : replaceRuleRefs g frm tgt s = .ok (g', s')) :
    g'.rules = g.rules.map (mapRule frm tgt) := by
  unfold replaceRuleRefs at h
  by_cases hempty :
      ((g.rules.map (fun r => refLocsE frm r.expression)).flatten).isEmpty = true
  · -- no reference matched: nothing happens, and the renaming is the identity
    have hnil : (g.rules.map (fun r => refLocsE frm r.expression)).flatten = [] := by
      simpa [List.isEmpty_iff] using hempty
    have hforall : ∀ r ∈ g.rules, frm ∉ exprRefs r.expression := by
      intro r hr
      have hmem := List.mem_map_of_mem (fun r => refLocsE frm r.expression) hr
      have : refLocsE frm r.expression = [] := by
        rw [List.flatten_eq_nil_iff] at hnil
        exact hnil _ hmem
      exact (refLocsE_nil_iff frm r.expression).mp this
    have hid : g.rules.map (mapRule frm tgt) = g.rules := by
      have hcongr := List.map_congr_left (l := g.rules) (f := mapRule frm tgt) (g := id)
        (fun r hr => by
          cases r with
          | mk a b c d e f =>
            simp [mapRule, renameRefsE_id frm tgt c (by simpa using hforall _ hr)])
      rw [hcongr, List.map_id]
    have hg : g = g' := by
      cases hfind : findRule g tgt <;> simp [hfind, hempty] at h <;> exact h.1
    rw [← hg, hid]
  · cases hfind : findRule g tgt with
    | none => simp [hfind, hempty] at h
    | some target =>
      simp only [hfind, hempty, if_false, Bool.false_eq_true] at h
      obtain ⟨s1, _, hres⟩ := except_bind_eq_ok h
      obtain ⟨hg', hs'⟩ :
          ({ g with rules := g.rules.map (mapRule frm tgt) } : Grammar) = g' ∧ s1 = s' := by
        simpa using hres
      rw [← hg']

/-! ### C4: the reverse splice equals position filtering -/

lemma removeIdxs_nil : ∀ (rs : List Rule) (k : Nat), removeIdxs [] rs k = rs
  | [], _ => rfl
  | r :: rs, k => by simp [removeIdxs, removeIdxs_nil rs (k + 1)]

lemma removeIdxs_congr (idxs₁ idxs₂ : List Nat) :
    ∀ (rs : List Rule) (k : Nat), (∀ j, k ≤ j → (j ∈ idxs₁ ↔ j ∈ idxs₂)) →
      removeIdxs idxs₁ rs k = removeIdxs idxs₂ rs k
  | [], _, _ => rfl
  | r :: rs, k, h => by
    have hk := h k le_rfl
    have ih := removeIdxs_congr idxs₁ idxs₂ rs (k + 1) (fun j hj => h j (by omega))
    by_cases hmem : k ∈ idxs₁
    · simp only [removeIdxs, if_pos hmem, if_pos (hk.mp hmem)]
      exact ih
    · simp only [removeIdxs, if_neg hmem, if_neg (fun hx => hmem (hk.mpr hx))]
      rw [ih]

lemma removeIdxs_eraseIdx (i : Nat) (idxs : List Nat) :
    ∀ (rs : List Rule) (k : Nat), (∀ j ∈ idxs, i < j) → k ≤ i →
      (removeIdxs idxs rs k).eraseIdx (i - k) = removeIdxs (i :: idxs) rs k
  | [], k, _, _ => by simp [removeIdxs, List.eraseIdx]
  | r :: rs, k, hgt, hk => by
    have hknot : k ∉ idxs := fun hx => absurd (hgt k hx) (by omega)
    by_cases hki : k = i
    · subst hki
      simp only [removeIdxs, if_neg hknot, if_pos (List.mem_cons_self k idxs),
        Nat.sub_self, List.eraseIdx_cons_zero]
      exact removeIdxs_congr idxs (k :: idxs) rs (k + 1)
        (fun j hj => by
          simp only [List.mem_cons]
          constructor
          · exact Or.inr
          · rintro (rfl | hx)
            · omega
            · exact hx)
    · have hki' : k < i := by omega
      have hnotc : k ∉ (i :: idxs) := by
        simp only [List.mem_cons, not_or]
        exact ⟨by omega, hknot⟩
      simp only [removeIdxs, if_neg hknot, if_neg hnotc]
      have hsub : i - k = (i - (k + 1)) + 1 := by omega
      rw [hsub, List.eraseIdx_cons_succ]
      rw [removeIdxs_eraseIdx i idxs rs (k + 1) hgt (by omega)]

lemma spliceOut_eq (idxs : List Nat) (hp : idxs.Pairwise (· < ·)) (rs : List Rule) :
    spliceOut idxs rs = removeIdxs idxs rs 0 := by
  induction idxs with
  | nil => simp [spliceOut, removeIdxs_nil]
  | cons i rest ih =>
    have hstep : spliceOut (i :: rest) rs = (spliceOut rest rs).eraseIdx i := by
      unfold spliceOut
      rw [List.reverse_cons, List.foldl_append]
      rfl
    rw [hstep, ih (List.Pairwise.of_cons hp)]
    have := removeIdxs_eraseIdx i rest rs 0 (fun j hj => List.rel_of_pairwise_cons hp hj)
      (Nat.zero_le i)
    simpa using this

lemma removeIdxs_mem (idxs : List Nat) :
    ∀ (rs : List Rule) (k : Nat) (r : Rule),
      r ∈ removeIdxs idxs rs k ↔ ∃ j, (k + j) ∉ idxs ∧ rs[j]? = some r
  | [], k, r => by simp [removeIdxs]
  | x :: rs, k, r => by
    have ih := removeIdxs_mem idxs rs (k + 1) r
    by_cases hmem : k ∈ idxs
    · simp only [removeIdxs, if_pos hmem]
      rw [ih]
      constructor
      · rintro ⟨j, hj, hget⟩
        refine ⟨j + 1, ?_, by simpa using hget⟩
        have : k + (j + 1) = k + 1 + j := by omega
        rw [this]; exact hj
      · rintro ⟨j, hj, hget⟩
        cases j with
        | zero => simp at hj hget; exact absurd hmem (by simpa using hj)
        | succ j =>
          refine ⟨j, ?_, by simpa using hget⟩
          have : k + 1 + j = k + (j + 1) := by omega
          rw [this]; exact hj
    · simp only [removeIdxs, if_neg hmem, List.mem_cons]
      rw [ih]
      constructor
      · rintro (rfl | ⟨j, hj, hget⟩)
        · exact ⟨0, by simpa using hmem, by simp⟩
        · refine ⟨j + 1, ?_, by simpa using hget⟩
          have : k + (j + 1) = k + 1 + j := by omega
          rw [this]; exact hj
      · rintro ⟨j, hj, hget⟩
        cases j with
        | zero => left; exact (by simpa using hget : x = r).symm
        | succ j =>
          right
          refine ⟨j, ?_, by simpa using hget⟩
          have : k + 1 + j = k + (j + 1) := by omega
          rw [this]; exact hj

/-! ### C4: shape preservation through the loop -/

lemma shapeEq_refl (rs : List Rule) : ShapeEq rs rs := ⟨rfl, fun _ => ⟨rfl, rfl⟩⟩

lemma shapeEq_trans {rs0 rs1 rs2 : List Rule}
    (h1 : ShapeEq rs0 rs1) (h2 : ShapeEq rs1 rs2) : ShapeEq rs0 rs2 :=
  ⟨h2.1.trans h1.1,
   fun k => ⟨((h2.2 k).1).trans ((h1.2 k).1), ((h2.2 k).2).trans ((h1.2 k).2)⟩⟩

lemma shapeEq_map (rs : List Rule) (frm tgt : String) :
    ShapeEq rs (rs.map (mapRule frm tgt)) := by
  refine ⟨by simp, fun k => ⟨?_, ?_⟩⟩
  · rw [List.getElem?_map]
    cases rs[k]? with
    | none => rfl
    | some r => simp [mapRule_name]
  · rw [List.getElem?_map]
    cases rs[k]? with
    | none => rfl
    | some r => simp [mapRule_isProxy]

/-- The proxy-ness of a rule is `true` exactly when its body is a reference. -/
lemma isProxy_iff (r : Rule) :
    isProxy r = true ↔ ∃ n m l, r.expression = .rule_ref n m l := by
  unfold isProxy
  cases hexp : r.expression <;> simp

lemma proxyLoop_shape (allowed : List String) (g0 : Grammar) :
    ∀ (n i : Nat) (g : Grammar) (s : Session) (idxs : List Nat)
      (g' : Grammar) (s' : Session) (idxs' : List Nat),
      proxyLoop allowed n i g s idxs = .ok (g', s', idxs') →
      ShapeEq g0.rules g.rules →
      ShapeEq g0.rules g'.rules
      ∧ idxs' = idxs ++ (List.range' i n).filter (removableAt g0 allowed)
  | 0, i, g, s, idxs, g', s', idxs', h, hsh => by
    obtain ⟨h1, h2, h3⟩ : g = g' ∧ s = s' ∧ idxs = idxs' := by
      simpa [proxyLoop] using h
    subst h1; subst h3
    exact ⟨hsh, by simp⟩
  | n + 1, i, g, s, idxs, g', s', idxs', h, hsh => by
    cases hget : g.rules[i]? with
    | none =>
      obtain ⟨h1, h2, h3⟩ : g = g' ∧ s = s' ∧ idxs = idxs' := by
        simpa [proxyLoop, hget] using h
      subst h1; subst h3
      have hlen : g.rules.length ≤ i := by
        simpa using List.getElem?_eq_none_iff.mp hget
      have hfnil : (List.range' i (n + 1)).filter (removableAt g0 allowed) = [] := by
        apply List.filter_eq_nil_iff.mpr
        intro k hk
        have hik : i ≤ k := (List.mem_range'_1.mp hk).1
        have hnone : g0.rules[k]? = none := by
          apply List.getElem?_eq_none_iff.mpr
          have := hsh.1
          omega
        simp [removableAt, hnone]
      exact ⟨hsh, by simp [hfnil]⟩
    | some r =>
      have hsome0 : ∃ r0, g0.rules[i]? = some r0 ∧ r0.name = r.name
          ∧ isProxy r0 = isProxy r := by
        have h1 := (hsh.2 i).1
        have h2 := (hsh.2 i).2
        rw [hget] at h1 h2
        cases hg0 : g0.rules[i]? with
        | none => rw [hg0] at h1; simp at h1
        | some r0 =>
          rw [hg0] at h1 h2
          exact ⟨r0, rfl, by simpa using h1.symm, by simpa using h2.symm⟩
      obtain ⟨r0, hg0, hname0, hproxy0⟩ := hsome0
      cases hexp : r.expression
      case rule_ref tname m l =>
        simp only [proxyLoop, hget, hexp] at h
        obtain ⟨p, hrep, hrest⟩ := except_bind_eq_ok h
        obtain ⟨g1, s1⟩ := p
        have hmap := replaceRuleRefs_ok g r.name tname s g1 s1 hrep
        have hsh1 : ShapeEq g0.rules g1.rules := by
          refine shapeEq_trans hsh ?_
          rw [hmap]
          exact shapeEq_map g.rules r.name tname
        obtain ⟨hsh', hidx⟩ := proxyLoop_shape allowed g0 n (i + 1) g1 s1
          (if r.name ∈ allowed then idxs else idxs ++ [i]) g' s' idxs' hrest hsh1
        have hpx : isProxy r = true := (isProxy_iff r).mpr ⟨tname, m, l, hexp⟩
        have hra : removableAt g0 allowed i = !(decide (r.name ∈ allowed)) := by
          simp only [removableAt, hg0, hproxy0, hname0, hpx]
          simp
        refine ⟨hsh', ?_⟩
        rw [hidx, List.range'_succ]
        by_cases hal : r.name ∈ allowed
        · simp only [if_pos hal]
          rw [List.filter_cons]
          simp [hra, hal]
        · simp only [if_neg hal]
          rw [List.filter_cons]
          simp [hra, hal]
      all_goals {
        simp only [proxyLoop, hget, hexp] at h
        obtain ⟨hsh', hidx⟩ := proxyLoop_shape allowed g0 n (i + 1) g s idxs g' s' idxs' h hsh
        have hpx : isProxy r = false := by simp [isProxy, hexp]
        have hra : removableAt g0 allowed i = false := by
          simp only [removableAt, hg0, hproxy0, hpx]
          simp
        refine ⟨hsh', ?_⟩
        rw [hidx, List.range'_succ, List.filter_cons]
        simp [hra]
      }

/-! ### C4: processed proxies are never referenced again -/

lemma proxyNamesBefore_eq_of_le (g0 : Grammar) {i j : Nat}
    (h : g0.rules.length ≤ i) (hij : i ≤ j) :
    proxyNamesBefore g0 j = proxyNamesBefore g0 i := by
  unfold proxyNamesBefore
  rw [List.take_of_length_le h, List.take_of_length_le (le_trans h hij)]

lemma proxyNamesBefore_succ (g0 : Grammar) (i : Nat) (r0 : Rule)
    (hg0 : g0.rules[i]? = some r0) :
    proxyNamesBefore g0 (i + 1)
      = proxyNamesBefore g0 i ++ (if isProxy r0 then [r0.name] else []) := by
  unfold proxyNamesBefore
  rw [List.take_succ, hg0]
  rw [List.filter_append, List.map_append]
  congr 1
  by_cases hp : isProxy r0 <;> simp [hp]

lemma mem_proxyNamesBefore_length (g0 : Grammar) (r0 : Rule)
    (hmem : r0 ∈ g0.rules) (hp : isProxy r0 = true) :
    r0.name ∈ proxyNamesBefore g0 g0.rules.length := by
  unfold proxyNamesBefore
  rw [List.take_length]
  exact List.mem_map_of_mem Rule.name (List.mem_filter.mpr ⟨hmem, hp⟩)

lemma proxyTarget_of_isProxy (r : Rule) (hp : isProxy r = true) :
    ∃ t, proxyTarget? r = some t := by
  rw [isProxy_iff] at hp
  obtain ⟨n, m, l, he⟩ := hp
  exact ⟨n, by simp [proxyTarget?, he]⟩

lemma proxyStep_of_getElem (g0 : Grammar) (i : Nat) (r0 : Rule) (t0 : String)
    (hg0 : g0.rules[i]? = some r0) (ht : proxyTarget? r0 = some t0) :
    ProxyStep g0 r0.name t0 :=
  ⟨r0, List.getElem?_mem hg0, rfl, ht⟩

lemma proxyLoop_dead (allowed : List String) (g0 : Grammar)
    (hacyc : ∀ a, ¬ Relation.TransGen (ProxyStep g0) a a) :
    ∀ (n i : Nat) (g : Grammar) (s : Session) (idxs : List Nat)
      (g' : Grammar) (s' : Session) (idxs' : List Nat),
      proxyLoop allowed n i g s idxs = .ok (g', s', idxs') →
      ShapeEq g0.rules g.rules →
      (∀ (k : Nat) (r0 r : Rule) (t : String),
        g0.rules[k]? = some r0 → g.rules[k]? = some r →
        proxyTarget? r = some t →
        ∃ t0, proxyTarget? r0 = some t0 ∧ Relation.ReflTransGen (ProxyStep g0) t0 t) →
      (∀ p ∈ proxyNamesBefore g0 i, ∀ r ∈ g.rules, p ∉ exprRefs r.expression) →
      ∀ p ∈ proxyNamesBefore g0 (i + n), ∀ r ∈ g'.rules, p ∉ exprRefs r.expression
  | 0, i, g, s, idxs, g', s', idxs', h, hsh, hreach, hdead => by
    obtain ⟨h1, h2, h3⟩ : g = g' ∧ s = s' ∧ idxs = idxs' := by
      simpa [proxyLoop] using h
    subst h1
    simpa using hdead
  | n + 1, i, g, s, idxs, g', s', idxs', h, hsh, hreach, hdead => by
    cases hget : g.rules[i]? with
    | none =>
      obtain ⟨h1, h2, h3⟩ : g = g' ∧ s = s' ∧ idxs = idxs' := by
        simpa [proxyLoop, hget] using h
      subst h1
      have hlen : g0.rules.length ≤ i := by
        have := List.getElem?_eq_none_iff.mp hget
        have hl := hsh.1
        omega
      rw [proxyNamesBefore_eq_of_le g0 hlen (by omega)]
      exact hdead
    | some r =>
      have hlen : i < g0.rules.length := by
        obtain ⟨hlt, -⟩ := List.getElem?_eq_some_iff.mp hget
        have hl := hsh.1
        omega
      have hsome0 : ∃ r0, g0.rules[i]? = some r0 ∧ r0.name = r.name
          ∧ isProxy r0 = isProxy r := by
        have h1 := (hsh.2 i).1
        have h2 := (hsh.2 i).2
        rw [hget] at h1 h2
        cases hg0 : g0.rules[i]? with
        | none => rw [hg0] at h1; simp at h1
        | some r0 =>
          rw [hg0] at h1 h2
          exact ⟨r0, rfl, by simpa using h1.symm, by simpa using h2.symm⟩
      obtain ⟨r0, hg0, hname0, hproxy0⟩ := hsome0
      cases hexp : r.expression
      case rule_ref tname m l =>
        simp only [proxyLoop, hget, hexp] at h
        obtain ⟨p, hrep, hrest⟩ := except_bind_eq_ok h
        obtain ⟨g1, s1⟩ := p
        have hmap := replaceRuleRefs_ok g r.name tname s g1 s1 hrep
        have hsh1 : ShapeEq g0.rules g1.rules := by
          refine shapeEq_trans hsh ?_
          rw [hmap]
          exact shapeEq_map g.rules r.name tname
        have hpx : isProxy r = true := (isProxy_iff r).mpr ⟨tname, m, l, hexp⟩
        -- the proxy at index i in the original grammar, with its original target
        have hpx0 : isProxy r0 = true := by rw [hproxy0]; exact hpx
        obtain ⟨t0i, ht0i⟩ := proxyTarget_of_isProxy r0 hpx0
        have hstep0 : ProxyStep g0 r.name t0i := by
          rw [← hname0]
          exact proxyStep_of_getElem g0 i r0 t0i hg0 ht0i
        -- the current target is reachable from the original target
        have htgt : proxyTarget? r = some tname := by simp [proxyTarget?, hexp]
        have hreach_i := hreach i r0 r tname hg0 hget htgt
        obtain ⟨t0i', ht0i', hchain_i⟩ := hreach_i
        have ht0eq : t0i' = t0i := by
          rw [ht0i] at ht0i'
          exact (Option.some.inj ht0i').symm
        rw [ht0eq] at hchain_i
        -- the rewrite target is not the proxy itself (else a proxy cycle)
        have htne : tname ≠ r.name := by
          intro hcontra
          apply hacyc r.name
          exact Relation.TransGen.head' hstep0 (hcontra ▸ hchain_i)
        -- references to `tname` exist in `g` (in `r` itself), so `tname` is
        -- not an already-processed proxy
        have htnotdead : tname ∉ proxyNamesBefore g0 i := by
          intro hmem
          have := hdead tname hmem r (List.getElem?_mem hget)
          apply this
          rw [hexp]
          simp [exprRefs]
        -- dead names for the recursive call
        have hdead1 : ∀ p ∈ proxyNamesBefore g0 (i + 1), ∀ r1 ∈ g1.rules,
            p ∉ exprRefs r1.expression := by
          intro p hp r1 hr1 hpin
          rw [hmap] at hr1
          obtain ⟨r2, hr2, rfl⟩ := List.mem_map.mp hr1
          rw [mapRule_refs] at hpin
          obtain ⟨q, hq, hqren⟩ := List.mem_map.mp hpin
          rw [proxyNamesBefore_succ g0 i r0 hg0, if_pos hpx0] at hp
          rcases List.mem_append.mp hp with hpold | hpnew
          · -- p was processed earlier
            unfold renameName at hqren
            split at hqren
            · subst hqren
              exact htnotdead hpold
            · subst hqren
              exact hdead q hpold r2 hr2 hq
          · -- p is the proxy just processed
            have hpr : p = r.name := by
              have : p = r0.name := by simpa using hpnew
              rw [this, hname0]
            subst hpr
            unfold renameName at hqren
            split at hqren
            · exact htne hqren
            · next hne => exact hne hqren
        -- reachability for the recursive call
        have hreach1 : ∀ (k : Nat) (rk0 rk1 : Rule) (t' : String),
            g0.rules[k]? = some rk0 →
            g1.rules[k]? = some rk1 → proxyTarget? rk1 = some t' →
            ∃ t0, proxyTarget? rk0 = some t0
              ∧ Relation.ReflTransGen (ProxyStep g0) t0 t' := by
          intro k rk0 rk1 t' hk0 hk1 ht'
          rw [hmap, List.getElem?_map] at hk1
          cases hk2 : g.rules[k]? with
          | none => rw [hk2] at hk1; simp at hk1
          | some rk2 =>
            rw [hk2] at hk1
            have hrk1 : rk1 = mapRule r.name tname rk2 := by simpa using hk1.symm
            rw [hrk1, mapRule_proxyTarget] at ht'
            cases hkt : proxyTarget? rk2 with
            | none => rw [hkt] at ht'; simp at ht'
            | some t =>
              rw [hkt] at ht'
              have ht'' : t' = renameName r.name tname t := by simpa using ht'.symm
              obtain ⟨t0, ht0, hchain⟩ := hreach k rk0 rk2 t hk0 hk2 hkt
              refine ⟨t0, ht0, ?_⟩
              unfold renameName at ht''
              split at ht''
              · next heq =>
                subst ht''
                -- t = r.name: extend the chain through the proxy at index i
                exact hchain.trans (heq ▸ Relation.ReflTransGen.head hstep0 hchain_i)
              · subst ht''
                exact hchain
        have hconc := proxyLoop_dead allowed g0 hacyc n (i + 1) g1 s1
          (if r.name ∈ allowed then idxs else idxs ++ [i]) g' s' idxs'
          hrest hsh1 hreach1 hdead1
        have harith : i + (n + 1) = (i + 1) + n := by omega
        rw [harith]
        exact hconc
      all_goals {
        simp only [proxyLoop, hget, hexp] at h
        have hpx : isProxy r = false := by simp [isProxy, hexp]
        have hpx0 : isProxy r0 = false := by rw [hproxy0]; exact hpx
        have hdead1 : ∀ p ∈ proxyNamesBefore g0 (i + 1), ∀ r1 ∈ g.rules,
            p ∉ exprRefs r1.expression := by
          intro p hp
          rw [proxyNamesBefore_succ g0 i r0 hg0, if_neg (by simp [hpx0])] at hp
          exact hdead p (by simpa using hp)
        have hconc := proxyLoop_dead allowed g0 hacyc n (i + 1) g s idxs g' s' idxs'
          h hsh hreach hdead1
        have harith : i + (n + 1) = (i + 1) + n := by omega
        rw [harith]
        exact hconc
      }

lemma shapeEq_get {rs0 rs : List Rule} (hsh : ShapeEq rs0 rs) (j : Nat) (r : Rule)
    (hget : rs[j]? = some r) :
    ∃ r0, rs0[j]? = some r0 ∧ r0.name = r.name ∧ isProxy r0 = isProxy r := by
  have h1 := (hsh.2 j).1
  have h2 := (hsh.2 j).2
  rw [hget] at h1 h2
  cases hg0 : rs0[j]? with
  | none => rw [hg0] at h1; simp at h1
  | some r0 =>
    rw [hg0] at h1 h2
    exact ⟨r0, rfl, by simpa using h1.symm, by simpa using h2.symm⟩

lemma shapeEq_get_orig {rs0 rs : List Rule} (hsh : ShapeEq rs0 rs) (j : Nat) (r0 : Rule)
    (hget0 : rs0[j]? = some r0) :
    ∃ r, rs[j]? = some r ∧ r.name = r0.name ∧ isProxy r = isProxy r0 := by
  have h1 := (hsh.2 j).1
  have h2 := (hsh.2 j).2
  rw [hget0] at h1 h2
  cases hg : rs[j]? with
  | none => rw [hg] at h1; simp at h1
  | some r =>
    rw [hg] at h1 h2
    exact ⟨r, rfl, by simpa using h1, by simpa using h2⟩

/-- C4 (amended): whenever the `removeProxyRules` pass completes, every
rule whose body is a single `rule_ref` and whose name is not in
`allowedStartRules` has been removed, and every rule named in
`allowedStartRules` remains present; moreover — provided no proxy rule
refers back to itself directly or through a chain of proxy rules — no
remaining `rule_ref` names a removed rule (every reference that resolved
before the pass still resolves after it). -/
theorem c4_remove_proxy_rules_amended :
    ∀ (g : Grammar) (allowed : List String) (s : Session) (g' : Grammar) (s' : Session),
      removeProxyRules g allowed s = .ok (g', s') →
      ((∀ r' ∈ g'.rules, isProxy r' = true → r'.name ∈ allowed)
      ∧ (∀ nm ∈ allowed, (∃ r ∈ g.rules, r.name = nm) → ∃ r' ∈ g'.rules, r'.name = nm)
      ∧ ((∀ a, ¬ Relation.TransGen (ProxyStep g) a a) →
        ∀ r' ∈ g'.rules, ∀ nm ∈ exprRefs r'.expression,
          (findRule g nm).isSome → (findRule g' nm).isSome)) := by
  intro g allowed s g' s' h
  unfold removeProxyRules at h
  obtain ⟨p, hloop, hpost⟩ := except_bind_eq_ok h
  obtain ⟨g1, s1, idxs⟩ := p
  obtain ⟨hg', hs'⟩ :
      ({ g1 with rules := spliceOut idxs g1.rules } : Grammar) = g' ∧ s1 = s' := by
    simpa using hpost
  obtain ⟨hsh, hidx⟩ := proxyLoop_shape allowed g g.rules.length 0 g s [] g1 s1 idxs
    hloop (shapeEq_refl _)
  have hidx' : idxs = (List.range' 0 g.rules.length).filter (removableAt g allowed) := by
    simpa using hidx
  have hpair : idxs.Pairwise (· < ·) := by
    rw [hidx']
    exact (List.pairwise_lt_range' 0 g.rules.length).sublist (List.filter_sublist _)
  have hrules' : g'.rules = removeIdxs idxs g1.rules 0 := by
    rw [← hg']
    exact spliceOut_eq idxs hpair g1.rules
  have hmemidx : ∀ j : Nat, j ∈ idxs ↔ removableAt g allowed j = true := by
    intro j
    rw [hidx']
    constructor
    · intro hj
      exact (List.mem_filter.mp hj).2
    · intro hj
      refine List.mem_filter.mpr ⟨?_, hj⟩
      have hjlen : j < g.rules.length := by
        by_contra hge
        have : g.rules[j]? = none := List.getElem?_eq_none_iff.mpr (by omega)
        rw [removableAt, this] at hj
        simp at hj
      exact List.mem_range'_1.mpr ⟨by omega, by omega⟩
  have hmemfin : ∀ r' : Rule, r' ∈ g'.rules ↔ ∃ j, j ∉ idxs ∧ g1.rules[j]? = some r' := by
    intro r'
    rw [hrules']
    rw [removeIdxs_mem idxs g1.rules 0 r']
    simp
  refine ⟨?_, ?_, ?_⟩
  · -- (1) no disallowed proxy survives
    intro r' hr' hpx'
    obtain ⟨j, hjn, hget1⟩ := (hmemfin r').mp hr'
    obtain ⟨r0, hg0, hname0, hproxy0⟩ := shapeEq_get hsh j r' hget1
    by_contra hal
    apply hjn
    rw [hmemidx]
    simp only [removableAt, hg0]
    rw [hproxy0, hpx']
    simp [hname0, hal]
  · -- (2) allowed rules survive
    rintro nm hnm ⟨r, hr, rfl⟩
    obtain ⟨j, hj⟩ := List.mem_iff_getElem?.mp hr
    obtain ⟨r1, hget1, hname1, _⟩ := shapeEq_get_orig hsh j r hj
    refine ⟨r1, (hmemfin r1).mpr ⟨j, ?_, hget1⟩, hname1⟩
    rw [hmemidx]
    simp only [removableAt, hj]
    simp [hnm]
  · -- (3) under proxy-acyclicity, surviving references still resolve
    intro hacyc r' hr' nm hnm hfind
    have hdead := proxyLoop_dead allowed g hacyc g.rules.length 0 g s [] g1 s1 idxs
      hloop (shapeEq_refl _)
      (fun k r0 r t hk0 hk ht => by
        rw [hk0] at hk
        exact ⟨t, (Option.some.inj hk) ▸ ht, Relation.ReflTransGen.refl⟩)
      (by
        intro p hp
        simp [proxyNamesBefore] at hp)
    obtain ⟨j, hjn, hget1⟩ := (hmemfin r').mp hr'
    have hr1mem : r' ∈ g1.rules := List.getElem?_mem hget1
    obtain ⟨r0, hr0mem, hr0nm⟩ := List.find?_isSome.mp hfind
    have hr0name : r0.name = nm := by simpa using hr0nm
    have hpx0 : isProxy r0 = false := by
      by_contra hpx
      have hpx' : isProxy r0 = true := by
        cases hq : isProxy r0
        · exact absurd hq hpx
        · rfl
      have hnm_dead := hdead nm
        (by
          have := mem_proxyNamesBefore_length g r0 hr0mem hpx'
          rw [hr0name] at this
          simpa using this)
        r' hr1mem
      exact hnm_dead hnm
    obtain ⟨k, hk⟩ := List.mem_iff_getElem?.mp hr0mem
    obtain ⟨r1, hget1', hname1, hproxy1⟩ := shapeEq_get_orig hsh k r0 hk
    have hknot : k ∉ idxs := by
      rw [hmemidx]
      simp only [removableAt, hk, hpx0]
      simp
    have hr1fin : r1 ∈ g'.rules := (hmemfin r1).mpr ⟨k, hknot, hget1'⟩
    apply List.find?_isSome.mpr
    exact ⟨r1, hr1fin, by simp [hname1, hr0name]⟩

/-- C4 (counterexample): on the grammar `A = A; start = A*` with
`allowedStartRules = ["start"]`, the pass completes, removes the self-proxy
`A`, and leaves `start`'s body referencing the removed rule `A` — so the
claim's "no remaining rule_ref names a removed rule" is false as stated. -/
theorem c4_remove_proxy_rules_counterexample :
    removeProxyRules gC4 ["start"] { stage := some .transform } = .ok (gC4expected, sC4)
    ∧ (findRule gC4 "A").isSome = true
    ∧ findRule gC4expected "A" = none
    ∧ gC4expected.rules.map (fun r => exprRefs r.expression) = [["A"]] := by
  refine ⟨?_, by simp [findRule, gC4], by simp [findRule, gC4expected], ?_⟩
  · simp [removeProxyRules, proxyLoop, replaceRuleRefs, refLocsE, refLocsL, findRule,
      gC4, gC4expected, sC4, Session.info, renameRefsE, renameRefsL, mapRule, renameName,
      spliceOut, List.foldlM, List.eraseIdx, Grammar.mk.injEq, Rule.mk.injEq]
    rfl
  · simp [gC4expected, exprRefs]

/-- Witness for the amended C4 on the acyclic proxy chain `A = B; B = "x"`
with `allowedStartRules = ["B"]`. -/
theorem c4_remove_proxy_rules_amended_witness :
    removeProxyRules gC4w ["B"] { stage := some .transform }
      = .ok (gC4w', { stage := some .transform })
    ∧ ((∀ r' ∈ gC4w'.rules, isProxy r' = true → r'.name ∈ ["B"])
      ∧ (∀ nm ∈ ["B"], (∃ r ∈ gC4w.rules, r.name = nm) → ∃ r' ∈ gC4w'.rules, r'.name = nm)
      ∧ ((∀ a, ¬ Relation.TransGen (ProxyStep gC4w) a a) →
        ∀ r' ∈ gC4w'.rules, ∀ nm ∈ exprRefs r'.expression,
          (findRule gC4w nm).isSome → (findRule gC4w' nm).isSome)) := by
  have hrun : removeProxyRules gC4w ["B"] { stage := some .transform }
      = .ok (gC4w', { stage := some .transform }) := by
    simp [removeProxyRules, proxyLoop, replaceRuleRefs, refLocsE, refLocsL, findRule,
      gC4w, gC4w', Session.info, renameRefsE, renameRefsL, mapRule, renameName,
      spliceOut, List.foldlM, List.eraseIdx, Grammar.mk.injEq, Rule.mk.injEq]
  exact ⟨hrun, c4_remove_proxy_rules_amended gC4w ["B"] _ gC4w' _ hrun⟩

/-! ### Helper lemmas for the bytecode generator (C5, C10) -/

@[simp] lemma excBind_ok {ε α β : Type} (a : α) (f : α → Except ε β) :
    Except.bind (.ok a) f = f a := rfl

@[simp] lemma excBind_err {ε α β : Type} (e : ε) (f : α → Except ε β) :
    Except.bind (.error e) f = .error e := rfl

lemma excBind_eq_ok {ε α β : Type} {x : Except ε α} {f : α → Except ε β} {b : β}
    (h : Except.bind x f = .ok b) : ∃ a, x = .ok a ∧ f a = .ok b := by
  cases x with
  | error e => simp at h
  | ok a => exact ⟨a, rfl, by simpa using h⟩

lemma findIdx?_isSome_of_find? {α : Type} (l : List α) (p : α → Bool)
    (h : (l.find? p).isSome) : (l.findIdx? p).isSome := by
  induction l with
  | nil => simp [List.find?] at h
  | cons a t ih =>
      rw [List.findIdx?_cons]
      by_cases hp : p a
      · simp [hp]
      · rw [List.find?_cons_of_neg _ (by simp [hp])] at h
        simp [hp, ih h]

lemma findIdx?_lt_length {α : Type} (l : List α) (p : α → Bool) (k : Nat)
    (h : l.findIdx? p = some k) : k < l.length := by
  induction l generalizing k with
  | nil => simp [List.findIdx?] at h
  | cons a t ih =>
      rw [List.findIdx?_cons] at h
      by_cases hp : p a
      · simp [hp] at h; simp; omega
      · simp [hp] at h
        obtain ⟨k', hk', rfl⟩ := h
        have := ih _ hk'
        simp; omega

lemma indexOfRule_valid (g : Grammar) (nm : String)
    (h : (findRule g nm).isSome) :
    ∃ k : Nat, k < g.rules.length ∧ indexOfRule g nm = (k : Int) := by
  have h' := findIdx?_isSome_of_find? g.rules (fun r => r.name == nm) h
  obtain ⟨k, hk⟩ := Option.isSome_iff_exists.mp h'
  exact ⟨k, findIdx?_lt_length _ _ _ hk, by simp [indexOfRule, hk]⟩

lemma mem_exprRefsL {nm : String} {a : Expr} :
    ∀ {l : List Expr}, a ∈ l → nm ∈ exprRefs a → nm ∈ exprRefsL l := by
  intro l
  induction l with
  | nil => intro h; simp at h
  | cons b t ih =>
      intro hmem hnm
      rcases List.mem_cons.mp hmem with rfl | hmem'
      · simp [exprRefsL, hnm]
      · simp [exprRefsL, ih hmem' hnm]

lemma envLookup_envSet (env : Env) (k : String) (v : Int) :
    envLookup (envSet env k v) k = some v := by
  induction env with
  | nil => simp [envSet, envLookup, List.find?]
  | cons p rest ih =>
      obtain ⟨k', v'⟩ := p
      by_cases hk : k' = k
      · simp only [envSet, if_pos hk]
        show (List.find? (fun p => p.1 == k) ((k, v) :: rest)).map (fun p => p.2) = some v
        rw [List.find?_cons_of_pos _ (by simp)]
        rfl
      · simp only [envSet, if_neg hk]
        show (List.find? (fun p => p.1 == k) ((k', v') :: envSet rest k v)).map
          (fun p => p.2) = some v
        rw [List.find?_cons_of_neg _ (by simp [hk])]
        exact ih

lemma wfAppend {n : Nat} {a b : Bytecode}
    (ha : BytecodeWF n a) (hb : BytecodeWF n b) : BytecodeWF n (a ++ b) := by
  induction ha with
  | nil => simpa using hb
  | op0 hc hrest ih => exact .op0 hc ih
  | op1 hc hrest ih => exact .op1 hc ih
  | ruleOp hr hrest ih => exact .ruleOp hr ih
  | branch0 hc ht he hrest iht ihe ihrest =>
      simp only [List.cons_append, List.append_assoc]
      exact .branch0 hc ht he ihrest
  | branch1 hc ht he hrest iht ihe ihrest =>
      simp only [List.cons_append, List.append_assoc]
      exact .branch1 hc ht he ihrest
  | whileLoop hbdy hrest ihb ihrest =>
      simp only [List.cons_append, List.append_assoc]
      exact .whileLoop hbdy ihrest
  | callOp hrest ih =>
      simp only [List.cons_append, List.append_assoc]
      exact .callOp ih
  | pluckOp hrest ih =>
      simp only [List.cons_append, List.append_assoc]
      exact .pluckOp ih

lemma wfCond0 {n : Nat} {c : Int} (hc : c ∈ condOps0) (m : MatchResult)
    {t e : Bytecode} (ht : BytecodeWF n t) (he : BytecodeWF n e) :
    BytecodeWF n (buildCondition m [c] t e) := by
  cases m with
  | always => exact ht
  | never => exact he
  | sometimes =>
      have := @BytecodeWF.branch0 n c t e [] hc ht he .nil
      simpa [buildCondition] using this

lemma wfCond1 {n : Nat} {c : Int} (hc : c ∈ condOps1) (m : MatchResult) (x : Int)
    {t e : Bytecode} (ht : BytecodeWF n t) (he : BytecodeWF n e) :
    BytecodeWF n (buildCondition m [c, x] t e) := by
  cases m with
  | always => exact ht
  | never => exact he
  | sometimes =>
      have := @BytecodeWF.branch1 n c x t e [] hc ht he .nil
      simpa [buildCondition] using this

lemma wfCall {n : Nat} (f d : Int) (env : Env) (sp : Int) :
    BytecodeWF n (buildCall f d env sp) := by
  have := @BytecodeWF.callOp n f d (env.map (fun p => sp - p.2)) [] .nil
  simpa [buildCall] using this

lemma wfAppendLoop {n : Nat} {ec : Bytecode} (h : BytecodeWF n ec) :
    BytecodeWF n (buildAppendLoop ec) := by
  have hb : BytecodeWF n ([op.APPEND] ++ ec) :=
    .op0 (by simp [zeroArgOps]) h
  have := @BytecodeWF.whileLoop n ([op.APPEND] ++ ec) [] hb .nil
  simpa [buildAppendLoop, buildLoop] using this

lemma wfSemanticPredicate (n : Nat) (code : String) (cl : LocationRange)
    (m? : Option MatchResult) (negative : Bool) (ctx : Ctx) (st : GenSt) :
    BytecodeWF n (buildSemanticPredicate code cl m? negative ctx st).1 := by
  show BytecodeWF n
    ([op.UPDATE_SAVED_POS]
      ++ buildCall (addFunctionConst st true (envKeys ctx.env) code cl).1 0 ctx.env ctx.sp
      ++ buildCondition (matchOf m?) [op.IF]
          ([op.POP] ++ [if negative then op.PUSH_FAILED else op.PUSH_UNDEFINED])
          ([op.POP] ++ [if negative then op.PUSH_UNDEFINED else op.PUSH_FAILED]))
  refine wfAppend (wfAppend (.op0 (by simp [zeroArgOps]) .nil) (wfCall _ _ _ _))
    (wfCond0 (by simp [condOps0]) _ ?_ ?_) <;>
    cases negative <;>
    exact .op0 (by simp [zeroArgOps]) (.op0 (by simp [zeroArgOps]) .nil)

lemma wfElementsTail (n : Nat) (total : Nat) (ctx : Ctx) (st : GenSt) :
    BytecodeWF n (buildElementsTail total ctx st).1 := by
  unfold buildElementsTail
  cases hact : ctx.action with
  | some a =>
      obtain ⟨ac, al⟩ := a
      exact .op1 (by simp [oneArgOps]) (wfCall _ _ _ _)
  | none =>
      exact .op1 (by simp [oneArgOps]) (.op0 (by simp [zeroArgOps]) .nil)


lemma expr_sizeOf_pos (e : Expr) : 0 < sizeOf e := by
  cases e <;> simp_arith

lemma exprList_sizeOf_pos (l : List Expr) : 0 < sizeOf l := by
  cases l <;> simp_arith

lemma generateWF_aux (g : Grammar) :
    ∀ nb : Nat,
      (∀ (e : Expr) (ctx : Ctx) (st : GenSt)
          (out : Bytecode × Env × Option (List Int) × GenSt),
        sizeOf e ≤ nb → RefsOk g e → generate g e ctx st = .ok out →
        BytecodeWF g.rules.length out.1)
      ∧ (∀ (e : Expr) (negative : Bool) (ctx : Ctx) (st : GenSt)
          (out : Bytecode × Env × Option (List Int) × GenSt),
        sizeOf e + 1 ≤ nb → RefsOk g e →
        buildSimplePredicate g e negative ctx st = .ok out →
        BytecodeWF g.rules.length out.1)
      ∧ (∀ (alts : List Expr) (ctx : Ctx) (st : GenSt) (out : Bytecode × GenSt),
        sizeOf alts ≤ nb → (∀ a ∈ alts, RefsOk g a) →
        buildAlternativesCode g alts ctx st = .ok out →
        BytecodeWF g.rules.length out.1)
      ∧ (∀ (total : Nat) (els : List Expr) (ctx : Ctx) (st : GenSt)
          (out : Bytecode × Env × Option (List Int) × GenSt),
        sizeOf els ≤ nb → (∀ a ∈ els, RefsOk g a) →
        buildElementsCode g total els ctx st = .ok out →
        BytecodeWF g.rules.length out.1) := by
  intro nb
  induction nb with
  | zero =>
      refine ⟨?_, ?_, ?_, ?_⟩
      · intro e ctx st out hsz hrefs h
        have := expr_sizeOf_pos e; omega
      · intro e negative ctx st out hsz hrefs h
        omega
      · intro alts ctx st out hsz hall h
        have := exprList_sizeOf_pos alts; omega
      · intro total els ctx st out hsz hall h
        have := exprList_sizeOf_pos els; omega
  | succ nb ih =>
      obtain ⟨ihE, ihSP, ihA, ihL⟩ := ih
      have hSP : ∀ (e : Expr) (negative : Bool) (ctx : Ctx) (st : GenSt)
          (out : Bytecode × Env × Option (List Int) × GenSt),
          sizeOf e + 1 ≤ nb + 1 → RefsOk g e →
          buildSimplePredicate g e negative ctx st = .ok out →
          BytecodeWF g.rules.length out.1 := by
        intro e negative ctx st out hsz hrefs h
        simp only [buildSimplePredicate] at h
        obtain ⟨⟨c0, e0, p0, s0⟩, hg, h⟩ := excBind_eq_ok h
        obtain rfl := Except.ok.inj h
        have hwf := ihE e _ _ _ (by omega) hrefs hg
        refine wfAppend (wfAppend (wfAppend (wfAppend
          (.op0 (by simp [zeroArgOps]) .nil) (.op0 (by simp [zeroArgOps]) .nil)) hwf)
          (.op0 (by simp [zeroArgOps]) .nil))
          (wfCond0 ?_ _ ?_ ?_)
        · cases negative <;> simp [condOps0]
        · refine wfAppend (wfAppend (.op0 (by simp [zeroArgOps]) .nil)
            (.op0 ?_ .nil)) (.op0 (by simp [zeroArgOps]) .nil)
          cases negative <;> simp [zeroArgOps]
        · refine wfAppend (wfAppend (.op0 (by simp [zeroArgOps]) .nil)
            (.op0 ?_ .nil)) (.op0 (by simp [zeroArgOps]) .nil)
          cases negative <;> simp [zeroArgOps]
      have hE : ∀ (e : Expr) (ctx : Ctx) (st : GenSt)
          (out : Bytecode × Env × Option (List Int) × GenSt),
          sizeOf e ≤ nb + 1 → RefsOk g e → generate g e ctx st = .ok out →
          BytecodeWF g.rules.length out.1 := by
        intro e ctx st out hsz hrefs h
        cases e with
        | named name expression m? loc =>
            simp only [generate] at h
            obtain ⟨⟨c0, e0, p0, s0⟩, hg, h⟩ := excBind_eq_ok h
            obtain rfl := Except.ok.inj h
            have hchild : RefsOk g expression := fun nm hnm =>
              hrefs nm (by simpa [exprRefs] using hnm)
            have hwf := ihE expression _ _ _ (by simp at hsz; omega) hchild hg
            exact wfAppend (wfAppend (wfAppend (.op0 (by simp [zeroArgOps]) .nil) hwf)
              (.op0 (by simp [zeroArgOps]) .nil))
              (wfCond0 (by simp [condOps0]) _ (.op1 (by simp [oneArgOps]) .nil) .nil)
        | choice alternatives m? loc =>
            simp only [generate] at h
            obtain ⟨⟨c0, s0⟩, hg, h⟩ := excBind_eq_ok h
            obtain rfl := Except.ok.inj h
            have hall : ∀ a ∈ alternatives, RefsOk g a := fun a ha nm hnm =>
              hrefs nm (by simpa [exprRefs] using mem_exprRefsL ha hnm)
            exact ihA alternatives _ _ _ (by simp at hsz; omega) hall hg
        | action code codeLocation expression m? loc =>
            simp only [generate] at h
            obtain ⟨⟨c0, e0, p0, s0⟩, hg, h⟩ := excBind_eq_ok h
            have hchild : RefsOk g expression := fun nm hnm =>
              hrefs nm (by simpa [exprRefs] using hnm)
            have hwf := ihE expression _ _ _ (by simp at hsz; omega) hchild hg
            cases hec : emitCallOf expression with
            | true =>
                rw [hec] at h
                simp only [reduceIte] at h
                obtain rfl := Except.ok.inj h
                exact wfAppend (wfAppend (wfAppend (.op0 (by simp [zeroArgOps]) .nil) hwf)
                  (wfCond0 (by simp [condOps0]) _
                    (wfAppend (.op1 (by simp [oneArgOps]) .nil) (wfCall _ _ _ _)) .nil))
                  (.op0 (by simp [zeroArgOps]) .nil)
            | false =>
                rw [hec] at h
                simp only [reduceIte] at h
                obtain rfl := Except.ok.inj h
                exact hwf
        | sequence elements m? loc =>
            simp only [generate] at h
            obtain ⟨⟨c0, e0, p0, s0⟩, hg, h⟩ := excBind_eq_ok h
            obtain rfl := Except.ok.inj h
            have hall : ∀ a ∈ elements, RefsOk g a := fun a ha nm hnm =>
              hrefs nm (by simpa [exprRefs] using mem_exprRefsL ha hnm)
            have hwf := ihL elements.length elements _ _ _ (by simp at hsz; omega) hall hg
            exact wfAppend (.op0 (by simp [zeroArgOps]) .nil) hwf
        | labeled pick label labelLocation expression m? loc =>
            simp only [generate] at h
            obtain ⟨pl0, hpl, h⟩ := excBind_eq_ok h
            obtain ⟨⟨c0, e0, p0, s0⟩, hg, h⟩ := excBind_eq_ok h
            have hchild : RefsOk g expression := fun nm hnm =>
              hrefs nm (by simpa [exprRefs] using hnm)
            have hwf := ihE expression _ _ _ (by simp at hsz; omega) hchild hg
            cases label with
            | some l =>
                obtain rfl := Except.ok.inj h
                exact hwf
            | none =>
                obtain rfl := Except.ok.inj h
                exact hwf
        | text expression m? loc =>
            simp only [generate] at h
            obtain ⟨⟨c0, e0, p0, s0⟩, hg, h⟩ := excBind_eq_ok h
            obtain rfl := Except.ok.inj h
            have hchild : RefsOk g expression := fun nm hnm =>
              hrefs nm (by simpa [exprRefs] using hnm)
            have hwf := ihE expression _ _ _ (by simp at hsz; omega) hchild hg
            exact wfAppend (wfAppend (.op0 (by simp [zeroArgOps]) .nil) hwf)
              (wfCond0 (by simp [condOps0]) _
                (wfAppend (.op0 (by simp [zeroArgOps]) .nil) (.op0 (by simp [zeroArgOps]) .nil))
                (.op0 (by simp [zeroArgOps]) .nil))
        | simple_and expression m? loc =>
            simp only [generate] at h
            have hchild : RefsOk g expression := fun nm hnm =>
              hrefs nm (by simpa [exprRefs] using hnm)
            exact hSP expression false _ _ _ (by simp at hsz; omega) hchild h
        | simple_not expression m? loc =>
            simp only [generate] at h
            have hchild : RefsOk g expression := fun nm hnm =>
              hrefs nm (by simpa [exprRefs] using hnm)
            exact hSP expression true _ _ _ (by simp at hsz; omega) hchild h
        | optional expression m? loc =>
            simp only [generate] at h
            obtain ⟨⟨c0, e0, p0, s0⟩, hg, h⟩ := excBind_eq_ok h
            obtain rfl := Except.ok.inj h
            have hchild : RefsOk g expression := fun nm hnm =>
              hrefs nm (by simpa [exprRefs] using hnm)
            have hwf := ihE expression _ _ _ (by simp at hsz; omega) hchild hg
            exact wfAppend hwf
              (wfCond0 (by simp [condOps0]) _
                (wfAppend (.op0 (by simp [zeroArgOps]) .nil) (.op0 (by simp [zeroArgOps]) .nil))
                .nil)
        | zero_or_more expression m? loc =>
            simp only [generate] at h
            obtain ⟨⟨c0, e0, p0, s0⟩, hg, h⟩ := excBind_eq_ok h
            obtain rfl := Except.ok.inj h
            have hchild : RefsOk g expression := fun nm hnm =>
              hrefs nm (by simpa [exprRefs] using hnm)
            have hwf := ihE expression _ _ _ (by simp at hsz; omega) hchild hg
            exact wfAppend (wfAppend (wfAppend (.op0 (by simp [zeroArgOps]) .nil) hwf)
              (wfAppendLoop hwf)) (.op0 (by simp [zeroArgOps]) .nil)
        | one_or_more expression m? loc =>
            simp only [generate] at h
            obtain ⟨⟨c0, e0, p0, s0⟩, hg, h⟩ := excBind_eq_ok h
            obtain rfl := Except.ok.inj h
            have hchild : RefsOk g expression := fun nm hnm =>
              hrefs nm (by simpa [exprRefs] using hnm)
            have hwf := ihE expression _ _ _ (by simp at hsz; omega) hchild hg
            exact wfAppend (wfAppend (.op0 (by simp [zeroArgOps]) .nil) hwf)
              (wfCond0 (by simp [condOps0]) _
                (wfAppend (wfAppendLoop hwf) (.op0 (by simp [zeroArgOps]) .nil))
                (wfAppend (wfAppend (.op0 (by simp [zeroArgOps]) .nil)
                  (.op0 (by simp [zeroArgOps]) .nil)) (.op0 (by simp [zeroArgOps]) .nil)))
        | group expression m? loc =>
            simp only [generate] at h
            obtain ⟨⟨c0, e0, p0, s0⟩, hg, h⟩ := excBind_eq_ok h
            obtain rfl := Except.ok.inj h
            have hchild : RefsOk g expression := fun nm hnm =>
              hrefs nm (by simpa [exprRefs] using hnm)
            have hwf := ihE expression _ _ _ (by simp at hsz; omega) hchild hg
            exact hwf
        | semantic_and code codeLocation m? loc =>
            simp only [generate] at h
            obtain rfl := Except.ok.inj h
            exact wfSemanticPredicate _ _ _ _ _ _ _
        | semantic_not code codeLocation m? loc =>
            simp only [generate] at h
            obtain rfl := Except.ok.inj h
            exact wfSemanticPredicate _ _ _ _ _ _ _
        | rule_ref name m? loc =>
            simp only [generate] at h
            obtain rfl := Except.ok.inj h
            have hres : (findRule g name).isSome := hrefs name (by simp [exprRefs])
            obtain ⟨k, hk, heq⟩ := indexOfRule_valid g name hres
            show BytecodeWF g.rules.length [op.RULE, indexOfRule g name]
            rw [heq]
            exact .ruleOp hk .nil
        | literal value ignoreCase m? loc =>
            simp only [generate] at h
            by_cases hv : value.length > 0
            · rw [if_pos hv] at h
              cases ignoreCase with
              | false =>
                  simp only [reduceIte, Bool.false_eq_true] at h
                  obtain rfl := Except.ok.inj h
                  exact wfCond1 (by simp [condOps1]) _ _
                    (.op1 (by simp [oneArgOps]) .nil) (.op1 (by simp [oneArgOps]) .nil)
              | true =>
                  simp only [reduceIte] at h
                  obtain rfl := Except.ok.inj h
                  exact wfCond1 (by simp [condOps1]) _ _
                    (.op1 (by simp [oneArgOps]) .nil) (.op1 (by simp [oneArgOps]) .nil)
            · rw [if_neg hv] at h
              obtain rfl := Except.ok.inj h
              exact .op0 (by simp [zeroArgOps]) .nil
        | charClass parts inverted ignoreCase m? loc =>
            simp only [generate] at h
            obtain rfl := Except.ok.inj h
            exact wfCond1 (by simp [condOps1]) _ _
              (.op1 (by simp [oneArgOps]) .nil) (.op1 (by simp [oneArgOps]) .nil)
        | anyChar m? loc =>
            simp only [generate] at h
            obtain rfl := Except.ok.inj h
            exact wfCond0 (by simp [condOps0]) _
              (.op1 (by simp [oneArgOps]) .nil) (.op1 (by simp [oneArgOps]) .nil)
      have hA : ∀ (alts : List Expr) (ctx : Ctx) (st : GenSt) (out : Bytecode × GenSt),
          sizeOf alts ≤ nb + 1 → (∀ a ∈ alts, RefsOk g a) →
          buildAlternativesCode g alts ctx st = .ok out →
          BytecodeWF g.rules.length out.1 := by
        intro alts ctx st out hsz hall h
        cases alts with
        | nil =>
            simp only [buildAlternativesCode] at h
            exact absurd h (by simp)
        | cons a rest =>
            simp only [buildAlternativesCode] at h
            obtain ⟨⟨c0, e0, p0, s0⟩, hg, h⟩ := excBind_eq_ok h
            have hwfa := ihE a _ _ _ (by simp at hsz; omega) (hall a (by simp)) hg
            by_cases hm : matchOf a.matchField = .always
            · rw [if_pos hm] at h
              obtain rfl := Except.ok.inj h
              exact hwfa
            · rw [if_neg hm] at h
              cases rest with
              | nil =>
                  simp only [List.isEmpty_nil, reduceIte] at h
                  obtain rfl := Except.ok.inj h
                  exact hwfa
              | cons r rs =>
                  simp only [List.isEmpty_cons, reduceIte, Bool.false_eq_true] at h
                  obtain ⟨⟨rc, rs0⟩, hrest, h⟩ := excBind_eq_ok h
                  obtain rfl := Except.ok.inj h
                  have hwfr := ihA (r :: rs) _ _ _ (by simp at hsz ⊢; omega)
                    (fun x hx => hall x (by simp [hx])) hrest
                  exact wfAppend hwfa (wfCond0 (by simp [condOps0]) _
                    (wfAppend (.op0 (by simp [zeroArgOps]) .nil) hwfr) .nil)
      have hL : ∀ (total : Nat) (els : List Expr) (ctx : Ctx) (st : GenSt)
          (out : Bytecode × Env × Option (List Int) × GenSt),
          sizeOf els ≤ nb + 1 → (∀ a ∈ els, RefsOk g a) →
          buildElementsCode g total els ctx st = .ok out →
          BytecodeWF g.rules.length out.1 := by
        intro total els ctx st out hsz hall h
        cases els with
        | cons e rest =>
            simp only [buildElementsCode] at h
            obtain ⟨⟨c0, e0, p0, s0⟩, hg, h⟩ := excBind_eq_ok h
            obtain ⟨⟨rc, re, rp, rs⟩, hrest, h⟩ := excBind_eq_ok h
            obtain rfl := Except.ok.inj h
            have hwfe := ihE e _ _ _ (by simp at hsz; omega) (hall e (by simp)) hg
            have hwfr := ihL total rest _ _ _ (by simp at hsz; omega)
              (fun x hx => hall x (by simp [hx])) hrest
            refine wfAppend hwfe (wfCond0 (by simp [condOps0]) _ hwfr ?_)
            refine wfAppend (wfAppend ?_ (.op0 (by simp [zeroArgOps]) .nil))
              (.op0 (by simp [zeroArgOps]) .nil)
            by_cases hpc : total - (e :: rest).length + 1 > 1
            · rw [if_pos hpc]
              exact .op1 (by simp [oneArgOps]) .nil
            · rw [if_neg hpc]
              exact .op0 (by simp [zeroArgOps]) .nil
        | nil =>
            simp only [buildElementsCode] at h
            cases hpl : ctx.pluck with
            | some pl =>
                cases pl with
                | cons p ps =>
                    simp only [hpl] at h
                    obtain rfl := Except.ok.inj h
                    have := @BytecodeWF.pluckOp g.rules.length ((total : Int) + 1)
                      ((p :: ps).map (fun eSP => ctx.sp - eSP)) [] .nil
                    simpa using this
                | nil =>
                    simp only [hpl] at h
                    obtain rfl := Except.ok.inj h
                    exact wfElementsTail _ _ _ _
            | none =>
                simp only [hpl] at h
                obtain rfl := Except.ok.inj h
                exact wfElementsTail _ _ _ _
      exact ⟨hE, hSP, hA, hL⟩

lemma generateWF (g : Grammar) (e : Expr) (ctx : Ctx) (st : GenSt)
    (out : Bytecode × Env × Option (List Int) × GenSt)
    (hrefs : RefsOk g e) (h : generate g e ctx st = .ok out) :
    BytecodeWF g.rules.length out.1 :=
  (generateWF_aux g (sizeOf e)).1 e ctx st out (le_refl _) hrefs h

lemma genRulesWF (g : Grammar) :
    ∀ (rs : List Rule) (st : GenSt) (out : List Rule × GenSt),
      (∀ r ∈ rs, RefsOk g r.expression) → genRules g rs st = .ok out →
      ∀ r' ∈ out.1, ∃ code, r'.bytecode? = some code ∧ BytecodeWF g.rules.length code := by
  intro rs
  induction rs with
  | nil =>
      intro st out hall h r' hr'
      simp only [genRules] at h
      obtain rfl := Except.ok.inj h
      simp at hr'
  | cons r rest ih =>
      intro st out hall h r' hr'
      simp only [genRules] at h
      obtain ⟨⟨r1, s1⟩, hr1, h⟩ := excBind_eq_ok h
      obtain ⟨⟨rs1, s2⟩, hrs, h⟩ := excBind_eq_ok h
      obtain rfl := Except.ok.inj h
      rcases List.mem_cons.mp hr' with rfl | hmem
      · simp only [genRule] at hr1
        obtain ⟨⟨c0, e0, p0, s0⟩, hg, hr1⟩ := excBind_eq_ok hr1
        have hr1' := Except.ok.inj hr1
        injection hr1' with h1 h2
        refine ⟨c0, ?_, generateWF g r.expression _ _ _ (hall r (by simp)) hg⟩
        rw [← h1]
      · exact ih _ _ (fun x hx => hall x (by simp [hx])) hrs r' hmem



/-- C5: `buildCondition` with ALWAYS (resp. NEVER) returns only the then-code
(resp. else-code) with no conditional instruction; with SOMETIMES it emits the
condition code followed by the two branch lengths and the two bodies inline;
`buildLoop` encodes the body length before the inline body; and on any grammar
whose `rule_ref`s all resolve, every bytecode sequence the generator emits is
well-formed: conditional operands equal the inlined branch-body lengths, loop
operands equal the inlined loop-body length, and every `RULE` operand is a
valid index into `grammar.rules`. -/
theorem c5_bytecode_wellformedness :
    (∀ condCode thenCode elseCode : Bytecode,
        buildCondition .always condCode thenCode elseCode = thenCode
      ∧ buildCondition .never condCode thenCode elseCode = elseCode
      ∧ buildCondition .sometimes condCode thenCode elseCode
          = condCode ++ [(thenCode.length : Int), (elseCode.length : Int)]
              ++ thenCode ++ elseCode)
    ∧ (∀ condCode bodyCode : Bytecode,
        buildLoop condCode bodyCode = condCode ++ [(bodyCode.length : Int)] ++ bodyCode)
    ∧ (∀ g g' : Grammar,
        (∀ r ∈ g.rules, RefsOk g r.expression) →
        generateBytecode g = .ok g' →
        ∀ r' ∈ g'.rules, ∃ code, r'.bytecode? = some code
          ∧ BytecodeWF g.rules.length code) := by
  refine ⟨fun c t e => ⟨rfl, rfl, rfl⟩, fun c b => rfl, ?_⟩
  intro g g' hall hgen r' hr'
  simp only [generateBytecode] at hgen
  obtain ⟨⟨rs1, s1⟩, hrs, hgen⟩ := excBind_eq_ok hgen
  obtain rfl := Except.ok.inj hgen
  exact genRulesWF g g.rules {} (rs1, s1) hall hrs r' hr'

/-- Witness for C5 on the grammar `start = "a"` (`gC8`). -/
theorem c5_bytecode_wellformedness_witness :
    generateBytecode gC8 = .ok gC5'
    ∧ gC5'.rules.map Rule.bytecode? = [some codeC10]
    ∧ BytecodeWF gC8.rules.length codeC10 := by
  have hgen : generateBytecode gC8 = .ok gC5' := by
    simp [Except.bind, generateBytecode, genRules, genRule, gC8, gC5', generate, matchOf,
      addLiteralConst, addExpectedConst, buildCondition, poolIdx, List.findIdx?, codeC10,
      show ("a" : String).length = 1 from rfl]
  have hrefs : ∀ r ∈ gC8.rules, RefsOk gC8 r.expression := by
    intro r hr
    simp [gC8] at hr
    subst hr
    intro nm hnm
    simp [exprRefs] at hnm
  obtain ⟨code, hc, hwf⟩ := c5_bytecode_wellformedness.2.2 gC8 gC5' hrefs hgen
    { name := "start", expression := .literal "a" false none {}, bytecode? := some codeC10 }
    (by simp [gC5'])
  have hcode : codeC10 = code := by simpa using hc
  subst hcode
  exact ⟨hgen, by simp [gC5'], hwf⟩

/-- C10: generating a labeled node with a non-null label returns, as the
mutated shared environment, the caller's environment extended with the label
bound to stack position sp+1; the labeled sub-expression itself is generated
with the pre-binding environment (`ctx.env`) and a null enclosing action; and
in a sequence every element after the first is generated in the environment
returned by (i.e. as mutated through) the element before it, so later
elements see the new binding. -/
theorem c10_labeled_env_binding :
    (∀ (g : Grammar) (pick : Bool) (l : String) (lloc : LocationRange) (e : Expr)
        (m? : Option MatchResult) (loc : LocationRange) (ctx : Ctx) (st : GenSt)
        (out : Bytecode × Env × Option (List Int) × GenSt),
      generate g (.labeled pick (some l) lloc e m? loc) ctx st = .ok out →
      out.2.1 = envSet ctx.env l (ctx.sp + 1)
      ∧ envLookup out.2.1 l = some (ctx.sp + 1)
      ∧ ∃ envc plc, generate g e ⟨ctx.sp, ctx.env, none, none⟩ st
          = .ok (out.1, envc, plc, out.2.2.2))
    ∧ (∀ (g : Grammar) (total : Nat) (e1 : Expr) (rest : List Expr) (ctx : Ctx)
        (st : GenSt) (code1 : Bytecode) (env1 : Env) (pl1 : Option (List Int)) (st1 : GenSt),
      generate g e1 ⟨ctx.sp, ctx.env, ctx.pluck, none⟩ st = .ok (code1, env1, pl1, st1) →
      buildElementsCode g total (e1 :: rest) ctx st
        = (buildElementsCode g total rest ⟨ctx.sp + 1, env1, pl1, ctx.action⟩ st1).map
            (fun r => (code1 ++ buildCondition (matchOf e1.matchField) [op.IF_NOT_ERROR] r.1
                ((if total - (e1 :: rest).length + 1 > 1
                  then [op.POP_N, ((total - (e1 :: rest).length + 1 : Nat) : Int)]
                  else [op.POP]) ++ [op.POP_CURR_POS] ++ [op.PUSH_FAILED]),
              r.2))) := by
  constructor
  · intro g pick l lloc e m? loc ctx st out h
    simp only [generate] at h
    obtain ⟨pl0, hpl, h⟩ := excBind_eq_ok h
    obtain ⟨⟨c0, e0, p0, s0⟩, hg, h⟩ := excBind_eq_ok h
    obtain rfl := Except.ok.inj h
    exact ⟨rfl, envLookup_envSet _ _ _, e0, p0, hg⟩
  · intro g total e1 rest ctx st code1 env1 pl1 st1 hg
    simp only [buildElementsCode, hg, excBind_ok]
    cases hrest : buildElementsCode g total rest ⟨ctx.sp + 1, env1, pl1, ctx.action⟩ st1 with
    | error msg => simp [Except.map, Except.bind]
    | ok r =>
        obtain ⟨rc, re, rp, rs⟩ := r
        simp [Except.map, Except.bind]

/-- Witness for C10 on the labeled node `x:"a"` in a one-element sequence. -/
theorem c10_labeled_env_binding_witness :
    generate gC10 labC10 ⟨0, [], some [], none⟩ {}
        = .ok (codeC10, [("x", 1)], some [], stC10')
    ∧ ([("x", (1 : Int))] : Env) = envSet [] "x" ((0 : Int) + 1)
    ∧ envLookup ([("x", (1 : Int))] : Env) "x" = some ((0 : Int) + 1)
    ∧ (∃ envc plc, generate gC10 (.literal "a" false none {}) ⟨0, [], none, none⟩ {}
        = .ok (codeC10, envc, plc, stC10'))
    ∧ buildElementsCode gC10 1 [labC10] ⟨0, [], some [], none⟩ {}
        = (buildElementsCode gC10 1 [] ⟨(0 : Int) + 1, [("x", 1)], some [], none⟩ stC10').map
            (fun r => (codeC10 ++ buildCondition (matchOf labC10.matchField) [op.IF_NOT_ERROR] r.1
                ((if 1 - ([labC10] : List Expr).length + 1 > 1
                  then [op.POP_N, ((1 - ([labC10] : List Expr).length + 1 : Nat) : Int)]
                  else [op.POP]) ++ [op.POP_CURR_POS] ++ [op.PUSH_FAILED]),
              r.2)) := by
  have hrun : generate gC10 labC10 ⟨0, [], some [], none⟩ {}
      = .ok (codeC10, [("x", 1)], some [], stC10') := by
    simp [Except.bind, generate, pushPluck, labC10, matchOf, addLiteralConst,
      addExpectedConst, buildCondition, poolIdx, List.findIdx?, envSet, codeC10, stC10',
      show ("a" : String).length = 1 from rfl]
  have h1 := c10_labeled_env_binding.1 gC10 false "x" {} (.literal "a" false none {})
    none {} ⟨0, [], some [], none⟩ {} (codeC10, [("x", 1)], some [], stC10')
    (by exact hrun)
  have h2 := c10_labeled_env_binding.2 gC10 1 labC10 [] ⟨0, [], some [], none⟩ {}
    codeC10 [("x", 1)] (some []) stC10' hrun
  exact ⟨hrun, h1.1, h1.2.1, h1.2.2, h2⟩


end Peggy
